import Mathlib

/-!
Verification of the dining philosophers core of the mesa-examples repository.

The embedding follows `examples/dining_philosophers/dining_philosophers/agent.py`
and `model.py`. Agents live on a ring of `2 * num_philosophers` nodes
(`nx.circulant_graph`): even nodes hold philosophers, odd nodes hold forks.
We model the two agent populations as total functions from ring position to
agent record (the grid is exactly a map from node id to the agent placed
there); an agent object in Python is identified here by its unique ring
position, so a fork owner is stored as `Option Nat` holding the owning
philosopher position. Random draws (`self.random.random()`) are modelled by
rational parameters in `[0,1)` supplied from outside, one per acting agent,
and the random shuffle of `AgentSet.shuffle_do` by a permutation of the list
of philosopher positions.
-/

namespace DiningPhilosophers

/-- The three philosopher states from `agent.py` (`class State(Enum)`). -/
inductive PState where
  | THINKING
  | HUNGRY
  | EATING
deriving DecidableEq

/-- The strategy selector values dispatched on in `try_to_eat`. -/
inductive Strategy where
  | Naive
  | Atomic
  | Cooperative
deriving DecidableEq

/-- A fork agent: `ForkAgent.__init__` sets `is_used = False`, `owner = None`.
The owner is recorded by ring position. -/
structure ForkAgent where
  is_used : Bool
  owner : Option Nat
deriving DecidableEq

/-- A philosopher agent record, fields from `PhilosopherAgent.__init__`. -/
structure PhilosopherAgent where
  state : PState
  total_eaten : Nat
  ticks_since_state_change : Nat
  total_wait_time : Nat
  eating_count : Nat
deriving DecidableEq

/-- The model state: configuration fields of `DiningPhilosophersModel.__init__`,
the mesa step counter, and the two agent arenas keyed by ring position. -/
structure Model where
  num_philosophers : Nat
  strategy : Strategy
  hungry_chance : ℚ
  full_chance : ℚ
  steps : Nat
  phils : Nat → PhilosopherAgent
  forks : Nat → ForkAgent

/-- `self.num_nodes = num_philosophers * 2`. -/
def num_nodes (m : Model) : Nat := m.num_philosophers * 2

/-- Position of the left fork: `(self.position - 1) % self.model.num_nodes`
(Python modulo of a negative number is nonnegative, hence the added period). -/
def left_pos (m : Model) (q : Nat) : Nat := (q + num_nodes m - 1) % num_nodes m

/-- Position of the right fork: `(self.position + 1) % self.model.num_nodes`. -/
def right_pos (m : Model) (q : Nat) : Nat := (q + 1) % num_nodes m

/-- Replace the philosopher record at position `q`. -/
def updatePhil (m : Model) (q : Nat) (f : PhilosopherAgent → PhilosopherAgent) : Model :=
  { m with phils := fun x => if x = q then f (m.phils x) else m.phils x }

/-- Replace the fork record at position `p`. -/
def updateFork (m : Model) (p : Nat) (f : ForkAgent → ForkAgent) : Model :=
  { m with forks := fun x => if x = p then f (m.forks x) else m.forks x }

/-- `PhilosopherAgent._start_eating`: add the current tick counter to the
accumulated wait time, bump the eating count, switch to EATING and reset the
tick counter. -/
def start_eating (m : Model) (q : Nat) : Model :=
  updatePhil m q (fun p =>
    { p with
      total_wait_time := p.total_wait_time + p.ticks_since_state_change
      eating_count := p.eating_count + 1
      state := PState.EATING
      ticks_since_state_change := 0 })

/-- Release one adjacent fork if this philosopher owns it (one iteration of
the loop in `put_down_forks`). -/
def put_down_fork (m : Model) (q p : Nat) : Model :=
  if (m.forks p).owner = some q then
    updateFork m p (fun f => { f with is_used := false, owner := none })
  else m

/-- `PhilosopherAgent.put_down_forks`: release each adjacent fork owned by
this philosopher. -/
def put_down_forks (m : Model) (q : Nat) : Model :=
  put_down_fork (put_down_fork m q (left_pos m q)) q (right_pos m q)

/-- `PhilosopherAgent.eat_strategy_naive`, translated clause by clause. -/
def eat_strategy_naive (m : Model) (q : Nat) : Model :=
  let lp := left_pos m q
  let rp := right_pos m q
  let m1 :=
    if (m.forks lp).owner ≠ some q ∧ (m.forks lp).is_used = false then
      updateFork m lp (fun f => { f with is_used := true, owner := some q })
    else m
  if (m1.forks lp).owner = some q then
    if (m1.forks rp).is_used = false then
      start_eating (updateFork m1 rp (fun f => { f with is_used := true, owner := some q })) q
    else m1
  else m1

/-- `PhilosopherAgent.eat_strategy_atomic`: claim both adjacent forks and eat
only when neither is in use. -/
def eat_strategy_atomic (m : Model) (q : Nat) : Model :=
  let lp := left_pos m q
  let rp := right_pos m q
  if (m.forks lp).is_used = false ∧ (m.forks rp).is_used = false then
    start_eating
      (updateFork (updateFork m lp (fun f => { f with is_used := true, owner := some q }))
        rp (fun f => { f with is_used := true, owner := some q })) q
  else m

/-- Positions of the philosophers in creation order (even nodes). -/
def phil_positions (m : Model) : List Nat :=
  (List.range m.num_philosophers).map (fun i => 2 * i)

/-- The second-neighbor philosophers inspected by the cooperative strategy:
those whose position is `(self.position - 2) % num_nodes` or
`(self.position + 2) % num_nodes`. -/
def second_neighbor_positions (m : Model) (q : Nat) : List Nat :=
  (phil_positions m).filter (fun x =>
    x == (q + num_nodes m - 2) % num_nodes m || x == (q + 2) % num_nodes m)

/-- The yield loop of `eat_strategy_cooperative`: yield when some hungry
second neighbor has waited strictly longer, or equally long with a lower
position. -/
def should_yield (m : Model) (q : Nat) : Bool :=
  (second_neighbor_positions m q).any (fun j =>
    (m.phils j).state == PState.HUNGRY &&
      (decide ((m.phils q).ticks_since_state_change < (m.phils j).ticks_since_state_change)
        || ((m.phils j).ticks_since_state_change == (m.phils q).ticks_since_state_change
              && decide (j < q))))

/-- `PhilosopherAgent.eat_strategy_cooperative`. -/
def eat_strategy_cooperative (m : Model) (q : Nat) : Model :=
  let lp := left_pos m q
  let rp := right_pos m q
  if (m.forks lp).is_used = true ∨ (m.forks rp).is_used = true then m
  else if should_yield m q then m
  else
    start_eating
      (updateFork (updateFork m lp (fun f => { f with is_used := true, owner := some q }))
        rp (fun f => { f with is_used := true, owner := some q })) q

/-- `PhilosopherAgent.try_to_eat`: dispatch on the configured strategy. -/
def try_to_eat (m : Model) (q : Nat) : Model :=
  match m.strategy with
  | Strategy.Naive => eat_strategy_naive m q
  | Strategy.Atomic => eat_strategy_atomic m q
  | Strategy.Cooperative => eat_strategy_cooperative m q

/-- `PhilosopherAgent.step` for the philosopher at position `q`; `r` is the
value the shared uniform random source would deliver to the single
`self.random.random()` call the branch taken may make. -/
def phil_step (m : Model) (q : Nat) (r : ℚ) : Model :=
  let m1 := updatePhil m q (fun p =>
    { p with ticks_since_state_change := p.ticks_since_state_change + 1 })
  if (m1.phils q).state = PState.THINKING ∧ r < m1.hungry_chance then
    updatePhil m1 q (fun p => { p with state := PState.HUNGRY, ticks_since_state_change := 0 })
  else if (m1.phils q).state = PState.HUNGRY then
    try_to_eat m1 q
  else if (m1.phils q).state = PState.EATING ∧ r < m1.full_chance then
    updatePhil (put_down_forks m1 q) q (fun p =>
      { p with
        state := PState.THINKING
        total_eaten := p.total_eaten + 1
        ticks_since_state_change := 0 })
  else m1

/-- `DiningPhilosophersModel.step`: mesa increments the step counter, then
`self.philosophers.shuffle_do("step")` runs every philosopher once in the
shuffled order `order`; `draw` assigns to each philosopher the uniform value
its own random call would observe this tick. The data collection that follows
is a pure read of the state. -/
def model_step (m : Model) (order : List Nat) (draw : Nat → ℚ) : Model :=
  order.foldl (fun t q => phil_step t q (draw q)) { m with steps := m.steps + 1 }

/-- `DiningPhilosophersModel.__init__`: stores the configuration unchanged
(no validation is performed anywhere in the constructor), places a thinking
philosopher on every even node and a free fork on every odd node, and starts
with step counter 0. -/
def initModel (num_philosophers : Nat) (strategy : Strategy)
    (hungry_chance full_chance : ℚ) : Model :=
  { num_philosophers := num_philosophers
    strategy := strategy
    hungry_chance := hungry_chance
    full_chance := full_chance
    steps := 0
    phils := fun _ =>
      { state := PState.THINKING
        total_eaten := 0
        ticks_since_state_change := 0
        total_wait_time := 0
        eating_count := 0 }
    forks := fun _ => { is_used := false, owner := none } }

/-- States reachable from `m0` by `step()` calls: each tick runs the
philosophers in some permutation of their creation order, with every uniform
draw in `[0,1)`. -/
inductive Reachable (m0 : Model) : Model → Prop where
  | refl : Reachable m0 m0
  | step (m : Model) (order : List Nat) (draw : Nat → ℚ) :
      Reachable m0 m → order.Perm (phil_positions m) →
      (∀ q ∈ order, 0 ≤ draw q ∧ draw q < 1) →
      Reachable m0 (model_step m order draw)

/-- Sum of `total_wait_time` over the philosophers, as in the
`"Avg Wait Time"` reporter. -/
def sum_total_wait_time (m : Model) : Nat :=
  ((phil_positions m).map (fun q => (m.phils q).total_wait_time)).sum

/-- Sum of `eating_count` over the philosophers. -/
def sum_eating_count (m : Model) : Nat :=
  ((phil_positions m).map (fun q => (m.phils q).eating_count)).sum

/-- Sum of `total_eaten` over the philosophers. -/
def sum_total_eaten (m : Model) : Nat :=
  ((phil_positions m).map (fun q => (m.phils q).total_eaten)).sum

/-- The `"Avg Wait Time"` model reporter. -/
def reporter_avg_wait_time (m : Model) : ℚ :=
  if 0 < sum_eating_count m then
    (sum_total_wait_time m : ℚ) / (sum_eating_count m : ℚ)
  else 0

/-- The `"Throughput"` model reporter (`m.steps` is the mesa step counter). -/
def reporter_throughput (m : Model) : ℚ :=
  if 0 < m.steps then (sum_total_eaten m : ℚ) / (m.steps : ℚ) else 0

/-- The per-philosopher reporter `"Pi"`: the `total_eaten` of the first
philosopher at position `2 * i`, with default `0` when there is none. -/
def reporter_P (m : Model) (i : Nat) : Nat :=
  if 2 * i ∈ phil_positions m then (m.phils (2 * i)).total_eaten else 0

/-- The list of the ten per-philosopher reporters added by the
`for i in range(10)` loop, evaluated at `m`. -/
def individual_reporters (m : Model) : List Nat :=
  (List.range 10).map (fun i => reporter_P m i)

/-- The error type named by the specification for invalid configurations. -/
inductive ConfigurationError where
  | invalidConfig
deriving DecidableEq

/-- Modelled from the spec: section 6 requires a constructor
`new_model(config)` that fails with a `ConfigurationError` when
`num_philosophers < 3` or any probability lies outside `[0,1]`, and
otherwise builds the model; no such validation exists in the source, whose
`__init__` accepts every configuration. -/
def new_model_spec (num_philosophers : Nat) (strategy : Strategy)
    (hungry_chance full_chance : ℚ) : Except ConfigurationError Model :=
  if 3 ≤ num_philosophers ∧ 0 ≤ hungry_chance ∧ hungry_chance ≤ 1
      ∧ 0 ≤ full_chance ∧ full_chance ≤ 1 then
    Except.ok (initModel num_philosophers strategy hungry_chance full_chance)
  else
    Except.error ConfigurationError.invalidConfig

/-! ### Frame lemmas for the state updates -/

@[simp]
theorem updatePhil_phils (m : Model) (q : Nat) (f : PhilosopherAgent → PhilosopherAgent)
    (x : Nat) : (updatePhil m q f).phils x = if x = q then f (m.phils x) else m.phils x := rfl

@[simp]
theorem updatePhil_forks (m : Model) (q : Nat) (f : PhilosopherAgent → PhilosopherAgent) :
    (updatePhil m q f).forks = m.forks := rfl

@[simp]
theorem updateFork_forks (m : Model) (c : Nat) (g : ForkAgent → ForkAgent) (x : Nat) :
    (updateFork m c g).forks x = if x = c then g (m.forks x) else m.forks x := rfl

@[simp]
theorem updateFork_phils (m : Model) (c : Nat) (g : ForkAgent → ForkAgent) :
    (updateFork m c g).phils = m.phils := rfl

@[simp]
theorem updatePhil_num (m : Model) (q : Nat) (f : PhilosopherAgent → PhilosopherAgent) :
    (updatePhil m q f).num_philosophers = m.num_philosophers := rfl

@[simp]
theorem updateFork_num (m : Model) (c : Nat) (g : ForkAgent → ForkAgent) :
    (updateFork m c g).num_philosophers = m.num_philosophers := rfl

@[simp]
theorem put_down_fork_phils (m : Model) (q c : Nat) :
    (put_down_fork m q c).phils = m.phils := by
  unfold put_down_fork; split <;> rfl

@[simp]
theorem put_down_fork_num (m : Model) (q c : Nat) :
    (put_down_fork m q c).num_philosophers = m.num_philosophers := by
  unfold put_down_fork; split <;> rfl

theorem left_pos_congr {a b : Model} (h : a.num_philosophers = b.num_philosophers) (q : Nat) :
    left_pos a q = left_pos b q := by
  unfold left_pos num_nodes; rw [h]

theorem right_pos_congr {a b : Model} (h : a.num_philosophers = b.num_philosophers) (q : Nat) :
    right_pos a q = right_pos b q := by
  unfold right_pos num_nodes; rw [h]

@[simp]
theorem left_pos_updateFork (m : Model) (c : Nat) (g : ForkAgent → ForkAgent) (q : Nat) :
    left_pos (updateFork m c g) q = left_pos m q := rfl

@[simp]
theorem right_pos_updateFork (m : Model) (c : Nat) (g : ForkAgent → ForkAgent) (q : Nat) :
    right_pos (updateFork m c g) q = right_pos m q := rfl

@[simp]
theorem left_pos_updatePhil (m : Model) (c : Nat) (g : PhilosopherAgent → PhilosopherAgent)
    (q : Nat) : left_pos (updatePhil m c g) q = left_pos m q := rfl

@[simp]
theorem right_pos_updatePhil (m : Model) (c : Nat) (g : PhilosopherAgent → PhilosopherAgent)
    (q : Nat) : right_pos (updatePhil m c g) q = right_pos m q := rfl

/-! ### The fork and eating invariants (spec sections 3 and 8) -/

/-- Fork exclusivity core: a fork is marked used exactly when it has an
owner. -/
def ForkInv (m : Model) : Prop :=
  ∀ p, (m.forks p).is_used = (m.forks p).owner.isSome

/-- Eating implies ownership of both adjacent forks. -/
def EatInv (m : Model) : Prop :=
  ∀ q, (m.phils q).state = PState.EATING →
    (m.forks (left_pos m q)).owner = some q ∧ (m.forks (right_pos m q)).owner = some q

/-- The conjunction of the two run-time invariants. -/
def Inv (m : Model) : Prop := ForkInv m ∧ EatInv m

theorem ForkInv.owner_used {m : Model} (h : ForkInv m) {p : Nat} {q : Nat}
    (ho : (m.forks p).owner = some q) : (m.forks p).is_used = true := by
  rw [h p, ho]; rfl

/-- Updating a philosopher without making it eat preserves both invariants. -/
theorem inv_updatePhil_not_eating {m : Model} (h : Inv m) (q : Nat)
    {f : PhilosopherAgent → PhilosopherAgent}
    (hf : ∀ p, (f p).state = p.state ∨ (f p).state ≠ PState.EATING) :
    Inv (updatePhil m q f) := by
  obtain ⟨hF, hE⟩ := h
  refine ⟨fun p => hF p, fun q' hq' => ?_⟩
  rw [left_pos_congr (a := updatePhil m q f) (b := m) rfl, right_pos_congr (a := updatePhil m q f) (b := m) rfl]
  have hstate : (m.phils q').state = PState.EATING := by
    by_cases hx : q' = q
    · subst hx
      rcases hf (m.phils q') with heq | hne
      · rw [updatePhil_phils, if_pos rfl] at hq'; rw [← heq]; exact hq'
      · rw [updatePhil_phils, if_pos rfl] at hq'; exact absurd hq' hne
    · rw [updatePhil_phils, if_neg hx] at hq'; exact hq'
  exact hE q' hstate

/-- Claiming a fork that is free or already owned by a non-eating claimant
preserves both invariants. -/
theorem claim_inv {m : Model} (h : Inv m) (q c : Nat)
    (hc : (m.forks c).is_used = false ∨ (m.forks c).owner = some q)
    (hq : (m.phils q).state ≠ PState.EATING) :
    Inv (updateFork m c (fun f => { f with is_used := true, owner := some q })) := by
  obtain ⟨hF, hE⟩ := h
  constructor
  · intro p
    by_cases hp : p = c
    · subst hp; simp
    · rw [updateFork_forks, if_neg hp]; exact hF p
  · intro q' hq'
    rw [updateFork_phils] at hq'
    have hne : q' ≠ q := fun e => hq (e ▸ hq')
    obtain ⟨hL, hR⟩ := hE q' hq'
    have hcne : ∀ x, (m.forks x).owner = some q' → x ≠ c := by
      intro x hx e
      subst e
      rcases hc with hfree | hown
      · rw [hF x, hx] at hfree; cases hfree
      · rw [hx] at hown; exact hne (Option.some.inj hown)
    rw [left_pos_congr (a := updateFork m c _) (b := m) rfl, right_pos_congr (a := updateFork m c _) (b := m) rfl]
    constructor
    · rw [updateFork_forks, if_neg (hcne _ hL)]; exact hL
    · rw [updateFork_forks, if_neg (hcne _ hR)]; exact hR

/-- Switching a philosopher to EATING preserves the invariants when it
already owns both adjacent forks. -/
theorem start_eating_inv {m : Model} (h : Inv m) (q : Nat)
    (hL : (m.forks (left_pos m q)).owner = some q)
    (hR : (m.forks (right_pos m q)).owner = some q) :
    Inv (start_eating m q) := by
  obtain ⟨hF, hE⟩ := h
  refine ⟨fun p => hF p, fun q' hq' => ?_⟩
  rw [left_pos_congr (a := start_eating m q) (b := m) rfl, right_pos_congr (a := start_eating m q) (b := m) rfl]
  by_cases hx : q' = q
  · subst hx
    exact ⟨hL, hR⟩
  · unfold start_eating at hq'
    rw [updatePhil_phils, if_neg hx] at hq'
    exact hE q' hq'

/-- A fork not owned by the releasing philosopher is untouched by one
release attempt. -/
theorem put_down_fork_preserve {m : Model} {q x : Nat} (c : Nat)
    (hx : (m.forks x).owner ≠ some q) :
    (put_down_fork m q c).forks x = m.forks x := by
  unfold put_down_fork
  split
  · next ho =>
    rw [updateFork_forks]
    rcases eq_or_ne x c with rfl | hne
    · exact absurd ho hx
    · rw [if_neg hne]
  · rfl

/-- Releasing a fork keeps the used flag and the owner in sync. -/
theorem put_down_fork_forkInv {m : Model} (hF : ForkInv m) (q c : Nat) :
    ForkInv (put_down_fork m q c) := by
  intro p
  unfold put_down_fork
  split
  · by_cases hp : p = c
    · subst hp; simp
    · rw [updateFork_forks, if_neg hp]; exact hF p
  · exact hF p

/-- A fork not owned by the releasing philosopher is untouched by
`put_down_forks`. -/
theorem put_down_forks_preserve {m : Model} {q x : Nat}
    (hx : (m.forks x).owner ≠ some q) :
    (put_down_forks m q).forks x = m.forks x := by
  unfold put_down_forks
  have i1 := put_down_fork_preserve (m := m) (q := q) (x := x) (left_pos m q) hx
  rw [put_down_fork_preserve _ (by rw [i1]; exact hx), i1]

@[simp]
theorem put_down_forks_phils (m : Model) (q : Nat) :
    (put_down_forks m q).phils = m.phils := by
  unfold put_down_forks; rw [put_down_fork_phils, put_down_fork_phils]

@[simp]
theorem put_down_forks_num (m : Model) (q : Nat) :
    (put_down_forks m q).num_philosophers = m.num_philosophers := by
  unfold put_down_forks; rw [put_down_fork_num, put_down_fork_num]

theorem left_pos_put_down_forks (m : Model) (q x : Nat) :
    left_pos (put_down_forks m q) x = left_pos m x := by
  unfold left_pos num_nodes; rw [put_down_forks_num]

theorem right_pos_put_down_forks (m : Model) (q x : Nat) :
    right_pos (put_down_forks m q) x = right_pos m x := by
  unfold right_pos num_nodes; rw [put_down_forks_num]

/-- Claiming both adjacent free forks and then eating preserves the
invariants. -/
theorem claim_both_eat_inv {m : Model} (h : Inv m) (q : Nat)
    (hq : (m.phils q).state = PState.HUNGRY)
    (hl : (m.forks (left_pos m q)).is_used = false)
    (hr : (m.forks (right_pos m q)).is_used = false) :
    Inv (start_eating
      (updateFork (updateFork m (left_pos m q) (fun f => { f with is_used := true, owner := some q }))
        (right_pos m q) (fun f => { f with is_used := true, owner := some q })) q) := by
  have hqE : (m.phils q).state ≠ PState.EATING := by rw [hq]; decide
  have h1 := claim_inv h q (left_pos m q) (Or.inl hl) hqE
  have h2 : Inv (updateFork
      (updateFork m (left_pos m q) (fun f => { f with is_used := true, owner := some q }))
      (right_pos m q) (fun f => { f with is_used := true, owner := some q })) := by
    apply claim_inv h1 q
    · by_cases hlr : right_pos m q = left_pos m q
      · right; rw [updateFork_forks, if_pos hlr]
      · left; rw [updateFork_forks, if_neg hlr]; exact hr
    · exact hqE
  apply start_eating_inv h2 q
  · simp only [left_pos_updateFork, updateFork_forks]
    by_cases hlr : left_pos m q = right_pos m q
    · simp [hlr]
    · simp [hlr]
  · simp only [right_pos_updateFork, updateFork_forks]
    simp

/-- The atomic strategy preserves the invariants. -/
theorem eat_strategy_atomic_inv {m : Model} (h : Inv m) (q : Nat)
    (hq : (m.phils q).state = PState.HUNGRY) :
    Inv (eat_strategy_atomic m q) := by
  simp only [eat_strategy_atomic]
  by_cases hc : (m.forks (left_pos m q)).is_used = false
      ∧ (m.forks (right_pos m q)).is_used = false
  · rw [if_pos hc]; exact claim_both_eat_inv h q hq hc.1 hc.2
  · rw [if_neg hc]; exact h

/-- The cooperative strategy preserves the invariants. -/
theorem eat_strategy_cooperative_inv {m : Model} (h : Inv m) (q : Nat)
    (hq : (m.phils q).state = PState.HUNGRY) :
    Inv (eat_strategy_cooperative m q) := by
  simp only [eat_strategy_cooperative]
  by_cases hc : (m.forks (left_pos m q)).is_used = true
      ∨ (m.forks (right_pos m q)).is_used = true
  · rw [if_pos hc]; exact h
  · rw [if_neg hc]
    by_cases hy : should_yield m q = true
    · rw [if_pos hy]; exact h
    · rw [if_neg hy]
      have hl : (m.forks (left_pos m q)).is_used = false :=
        Bool.eq_false_iff.mpr (fun x => hc (Or.inl x))
      have hr : (m.forks (right_pos m q)).is_used = false :=
        Bool.eq_false_iff.mpr (fun x => hc (Or.inr x))
      exact claim_both_eat_inv h q hq hl hr

/-- The second phase of the naive strategy preserves the invariants. -/
theorem naive_right_phase_inv {m : Model} (h : Inv m) (q : Nat)
    (hq : (m.phils q).state = PState.HUNGRY) :
    Inv (if (m.forks (left_pos m q)).owner = some q then
          if (m.forks (right_pos m q)).is_used = false then
            start_eating
              (updateFork m (right_pos m q)
                (fun f => { f with is_used := true, owner := some q })) q
          else m
        else m) := by
  have hqE : (m.phils q).state ≠ PState.EATING := by rw [hq]; decide
  by_cases ha : (m.forks (left_pos m q)).owner = some q
  · rw [if_pos ha]
    by_cases hb : (m.forks (right_pos m q)).is_used = false
    · rw [if_pos hb]
      have h2 := claim_inv h q (right_pos m q) (Or.inl hb) hqE
      apply start_eating_inv h2 q
      · simp only [left_pos_updateFork, updateFork_forks]
        by_cases hlr : left_pos m q = right_pos m q
        · simp [hlr]
        · simp only [if_neg hlr]; exact ha
      · simp only [right_pos_updateFork, updateFork_forks]
        simp
    · rw [if_neg hb]; exact h
  · rw [if_neg ha]; exact h

/-- The naive strategy preserves the invariants. -/
theorem eat_strategy_naive_inv {m : Model} (h : Inv m) (q : Nat)
    (hq : (m.phils q).state = PState.HUNGRY) :
    Inv (eat_strategy_naive m q) := by
  have hqE : (m.phils q).state ≠ PState.EATING := by rw [hq]; decide
  simp only [eat_strategy_naive]
  by_cases hc : (m.forks (left_pos m q)).owner ≠ some q
      ∧ (m.forks (left_pos m q)).is_used = false
  · rw [if_pos hc]
    exact naive_right_phase_inv (claim_inv h q _ (Or.inl hc.2) hqE) q hq
  · rw [if_neg hc]
    exact naive_right_phase_inv h q hq

/-- Any strategy attempt preserves the invariants. -/
theorem try_to_eat_inv {m : Model} (h : Inv m) (q : Nat)
    (hq : (m.phils q).state = PState.HUNGRY) :
    Inv (try_to_eat m q) := by
  unfold try_to_eat
  cases hstrat : m.strategy
  · exact eat_strategy_naive_inv h q hq
  · exact eat_strategy_atomic_inv h q hq
  · exact eat_strategy_cooperative_inv h q hq

/-- One philosopher tick preserves the invariants. -/
theorem phil_step_inv {m : Model} (h : Inv m) (q : Nat) (r : ℚ) :
    Inv (phil_step m q r) := by
  simp only [phil_step]
  have h1 : Inv (updatePhil m q fun p =>
      { p with ticks_since_state_change := p.ticks_since_state_change + 1 }) :=
    inv_updatePhil_not_eating h q (fun p => Or.inl rfl)
  set m1 := updatePhil m q fun p =>
      { p with ticks_since_state_change := p.ticks_since_state_change + 1 } with hm1
  by_cases hc1 : (m1.phils q).state = PState.THINKING ∧ r < m1.hungry_chance
  · rw [if_pos hc1]
    exact inv_updatePhil_not_eating h1 q (fun p => Or.inr (fun hcon => PState.noConfusion hcon))
  · rw [if_neg hc1]
    by_cases hc2 : (m1.phils q).state = PState.HUNGRY
    · rw [if_pos hc2]
      exact try_to_eat_inv h1 q hc2
    · rw [if_neg hc2]
      by_cases hc3 : (m1.phils q).state = PState.EATING ∧ r < m1.full_chance
      · rw [if_pos hc3]
        have hFr : ForkInv (put_down_forks m1 q) := by
          unfold put_down_forks
          exact put_down_fork_forkInv (put_down_fork_forkInv h1.1 q _) q _
        refine ⟨fun p => hFr p, ?_⟩
        intro q' hq'
        by_cases hx : q' = q
        · subst hx
          rw [updatePhil_phils, if_pos rfl] at hq'
          exact PState.noConfusion hq'
        · rw [updatePhil_phils, if_neg hx] at hq'
          rw [put_down_forks_phils] at hq'
          obtain ⟨hL, hR⟩ := h1.2 q' hq'
          have hLq : (m1.forks (left_pos m1 q')).owner ≠ some q := by
            rw [hL]; intro e; exact hx (Option.some.inj e)
          have hRq : (m1.forks (right_pos m1 q')).owner ≠ some q := by
            rw [hR]; intro e; exact hx (Option.some.inj e)
          constructor
          · simp only [left_pos_updatePhil, left_pos_put_down_forks, updatePhil_forks]
            rw [put_down_forks_preserve hLq]
            exact hL
          · simp only [right_pos_updatePhil, right_pos_put_down_forks, updatePhil_forks]
            rw [put_down_forks_preserve hRq]
            exact hR
      · rw [if_neg hc3]; exact h1

/-- A whole model tick preserves the invariants. -/
theorem foldl_phil_step_inv (draw : Nat → ℚ) (order : List Nat) :
    ∀ (m : Model), Inv m → Inv (order.foldl (fun t q => phil_step t q (draw q)) m) := by
  induction order with
  | nil => intro m h; exact h
  | cons a rest ih => intro m h; exact ih _ (phil_step_inv h a (draw a))

theorem model_step_inv {m : Model} (h : Inv m) (order : List Nat) (draw : Nat → ℚ) :
    Inv (model_step m order draw) := by
  unfold model_step
  exact foldl_phil_step_inv draw order _ ⟨h.1, h.2⟩

/-- The initial state satisfies both invariants. -/
theorem initModel_inv (n : Nat) (st : Strategy) (hc fc : ℚ) :
    Inv (initModel n st hc fc) := by
  constructor
  · intro p; rfl
  · intro q hq; exact PState.noConfusion hq

/-- Every reachable state satisfies both invariants. -/
theorem reachable_inv {m0 m : Model} (h : Reachable m0 m) (h0 : Inv m0) : Inv m := by
  induction h with
  | refl => exact h0
  | step m order draw hr hperm hdraw ih => exact model_step_inv ih order draw

@[simp]
theorem start_eating_forks (m : Model) (q : Nat) :
    (start_eating m q).forks = m.forks := rfl

/-! ### Concrete reachable states used as witnesses -/

/-- One tick of the atomic three-philosopher scenario with certain hunger. -/
def witness_state1 : Model :=
  model_step (initModel 3 Strategy.Atomic 1 0) [0, 2, 4] (fun _ => 0)

/-- Two ticks of the same scenario: philosopher 0 eats on the second tick. -/
def witness_state2 : Model :=
  model_step witness_state1 [0, 2, 4] (fun _ => 0)

theorem witness_state1_reachable :
    Reachable (initModel 3 Strategy.Atomic 1 0) witness_state1 :=
  Reachable.step _ [0, 2, 4] (fun _ => 0) Reachable.refl (by decide) (by decide)

theorem witness_state2_reachable :
    Reachable (initModel 3 Strategy.Atomic 1 0) witness_state2 :=
  Reachable.step _ [0, 2, 4] (fun _ => 0) witness_state1_reachable (by decide) (by decide)

/-! ### The claims -/

/-- C1, counterexample: the specified constructor rejects the configuration
with a single philosopher, but the implemented constructor silently accepts
it and builds a normal model, so construction does not fail for
`num_philosophers < 3`. -/
theorem C1_counterexample :
    new_model_spec 1 Strategy.Naive 0 0 = Except.error ConfigurationError.invalidConfig
      ∧ (initModel 1 Strategy.Naive 0 0).num_philosophers = 1
      ∧ phil_positions (initModel 1 Strategy.Naive 0 0) = [0]
      ∧ ((initModel 1 Strategy.Naive 0 0).phils 0).state = PState.THINKING := by
  refine ⟨?_, rfl, by decide, rfl⟩
  unfold new_model_spec
  rw [if_neg]
  intro hcon
  exact absurd hcon.1 (by omega)

/-- C1, amended: model construction performs no validation and never fails;
every configuration, including `num_philosophers < 3` or probabilities
outside `[0,1]`, is accepted unchanged, with all philosophers Thinking and
all forks free. -/
theorem C1_no_validation (n : Nat) (st : Strategy) (hc fc : ℚ) :
    (initModel n st hc fc).num_philosophers = n ∧
    (initModel n st hc fc).strategy = st ∧
    (initModel n st hc fc).hungry_chance = hc ∧
    (initModel n st hc fc).full_chance = fc ∧
    (initModel n st hc fc).steps = 0 ∧
    (∀ q, (initModel n st hc fc).phils q =
      { state := PState.THINKING, total_eaten := 0, ticks_since_state_change := 0,
        total_wait_time := 0, eating_count := 0 }) ∧
    (∀ p, (initModel n st hc fc).forks p = { is_used := false, owner := none }) :=
  ⟨rfl, rfl, rfl, rfl, rfl, fun _ => rfl, fun _ => rfl⟩

/-- C2: in every state reachable from a fresh model by `step()` calls, every
fork is marked used exactly when it has an owner, and a fork has at most one
owner at a time. -/
theorem C2_fork_exclusivity (n : Nat) (st : Strategy) (hc fc : ℚ) (m : Model)
    (h : Reachable (initModel n st hc fc) m) (p : Nat) :
    (m.forks p).is_used = (m.forks p).owner.isSome ∧
      ∀ a b : Nat, (m.forks p).owner = some a → (m.forks p).owner = some b → a = b := by
  have hInv := reachable_inv h (initModel_inv n st hc fc)
  refine ⟨hInv.1 p, fun a b ha hb => ?_⟩
  rw [ha] at hb
  exact Option.some.inj hb

/-- Witness for C2 at a concrete reachable state. -/
theorem C2_fork_exclusivity_witness :
    (witness_state1.forks 1).is_used = (witness_state1.forks 1).owner.isSome ∧
      ∀ a b : Nat, (witness_state1.forks 1).owner = some a →
        (witness_state1.forks 1).owner = some b → a = b :=
  C2_fork_exclusivity 3 Strategy.Atomic 1 0 witness_state1 witness_state1_reachable 1

/-- C3: in every reachable state, an eating philosopher owns both adjacent
forks and both are marked used. -/
theorem C3_eating_owns_forks (n : Nat) (st : Strategy) (hc fc : ℚ) (m : Model)
    (h : Reachable (initModel n st hc fc) m) (q : Nat)
    (hq : (m.phils q).state = PState.EATING) :
    (m.forks (left_pos m q)).owner = some q ∧ (m.forks (left_pos m q)).is_used = true ∧
      (m.forks (right_pos m q)).owner = some q ∧
      (m.forks (right_pos m q)).is_used = true := by
  have hInv := reachable_inv h (initModel_inv n st hc fc)
  obtain ⟨hL, hR⟩ := hInv.2 q hq
  exact ⟨hL, hInv.1.owner_used hL, hR, hInv.1.owner_used hR⟩

/-- Witness for C3: after two ticks of the atomic scenario, philosopher 0 is
eating and owns both adjacent forks. -/
theorem C3_eating_owns_forks_witness :
    (witness_state2.forks (left_pos witness_state2 0)).owner = some 0 ∧
      (witness_state2.forks (left_pos witness_state2 0)).is_used = true ∧
      (witness_state2.forks (right_pos witness_state2 0)).owner = some 0 ∧
      (witness_state2.forks (right_pos witness_state2 0)).is_used = true :=
  C3_eating_owns_forks 3 Strategy.Atomic 1 0 witness_state2 witness_state2_reachable 0
    (by decide)

/-- The two adjacent fork positions are distinct once there are at least two
philosophers. -/
theorem left_pos_ne_right_pos (m : Model) (q : Nat) (hP : 2 ≤ m.num_philosophers) :
    left_pos m q ≠ right_pos m q := by
  unfold left_pos right_pos num_nodes
  intro h
  set N := m.num_philosophers * 2 with hN
  have hN4 : 4 ≤ N := by omega
  have e1 : q + N - 1 = q + 1 + (N - 2) := by omega
  rw [e1] at h
  have h2 : (N - 2) % N = 0 % N :=
    Nat.ModEq.add_left_cancel' (q + 1) (by simpa using h)
  rw [Nat.mod_eq_of_lt (by omega), Nat.zero_mod] at h2
  omega

/-- C4: under the Atomic strategy a hungry philosopher claims both adjacent
forks and starts eating exactly when both are free; otherwise the attempt
leaves the whole model unchanged and the philosopher stays hungry. -/
theorem C4_atomic_all_or_nothing (m : Model) (q : Nat)
    (hst : m.strategy = Strategy.Atomic) (hq : (m.phils q).state = PState.HUNGRY) :
    (((m.forks (left_pos m q)).is_used = false ∧ (m.forks (right_pos m q)).is_used = false) →
      (try_to_eat m q).forks (left_pos m q) = { is_used := true, owner := some q } ∧
      (try_to_eat m q).forks (right_pos m q) = { is_used := true, owner := some q } ∧
      (∀ p, p ≠ left_pos m q → p ≠ right_pos m q → (try_to_eat m q).forks p = m.forks p) ∧
      ((try_to_eat m q).phils q).state = PState.EATING) ∧
    (((m.forks (left_pos m q)).is_used = true ∨ (m.forks (right_pos m q)).is_used = true) →
      try_to_eat m q = m ∧ ((try_to_eat m q).phils q).state = PState.HUNGRY) := by
  have e : try_to_eat m q = eat_strategy_atomic m q := by
    unfold try_to_eat; rw [hst]
  constructor
  · rintro ⟨h1, h2⟩
    rw [e]
    simp only [eat_strategy_atomic]
    rw [if_pos ⟨h1, h2⟩]
    refine ⟨?_, ?_, ?_, ?_⟩
    · simp only [start_eating_forks, updateFork_forks]
      by_cases hlr : left_pos m q = right_pos m q <;> simp [hlr]
    · simp only [start_eating_forks, updateFork_forks]
      simp
    · intro p hp1 hp2
      simp only [start_eating_forks, updateFork_forks, if_neg hp2, if_neg hp1]
    · unfold start_eating
      rw [updatePhil_phils, if_pos rfl]
  · intro hor
    have hneg : ¬((m.forks (left_pos m q)).is_used = false
        ∧ (m.forks (right_pos m q)).is_used = false) := by
      rcases hor with h | h <;> simp [h]
    rw [e]
    simp only [eat_strategy_atomic]
    rw [if_neg hneg]
    exact ⟨rfl, hq⟩

/-- Witness for C4: in the one-tick scenario philosopher 0 can eat, and in
the two-tick scenario philosopher 2 faces a used fork and changes nothing. -/
theorem C4_atomic_all_or_nothing_witness :
    ((try_to_eat witness_state1 0).phils 0).state = PState.EATING ∧
      try_to_eat witness_state2 2 = witness_state2 :=
  ⟨((C4_atomic_all_or_nothing witness_state1 0 (by decide) (by decide)).1
      ⟨by decide, by decide⟩).2.2.2,
   ((C4_atomic_all_or_nothing witness_state2 2 (by decide) (by decide)).2
      (Or.inl (by decide))).1⟩

/-- The yield rule of the cooperative strategy, stated as a predicate: some
philosopher at ring position `q - 2` or `q + 2` (mod `2P`) is hungry and has
either waited strictly longer, or waited equally long and has a lower
position. -/
def yield_condition (m : Model) (q : Nat) : Prop :=
  ∃ j, j ∈ phil_positions m ∧
    (j = (q + num_nodes m - 2) % num_nodes m ∨ j = (q + 2) % num_nodes m) ∧
    (m.phils j).state = PState.HUNGRY ∧
    ((m.phils q).ticks_since_state_change < (m.phils j).ticks_since_state_change ∨
      ((m.phils j).ticks_since_state_change = (m.phils q).ticks_since_state_change ∧ j < q))

/-- The boolean yield loop decides exactly the yield predicate. -/
theorem should_yield_iff (m : Model) (q : Nat) :
    should_yield m q = true ↔ yield_condition m q := by
  unfold should_yield yield_condition second_neighbor_positions
  simp [List.any_eq_true, List.mem_filter, Bool.or_eq_true, beq_iff_eq,
    Bool.and_eq_true, decide_eq_true_eq, and_assoc]

/-- C5: under the Cooperative strategy a hungry philosopher leaves the model
unchanged when either adjacent fork is in use; with both forks free it backs
off exactly when the yield condition holds, and otherwise claims both forks
and starts eating. -/
theorem C5_cooperative_yield (m : Model) (q : Nat)
    (hst : m.strategy = Strategy.Cooperative) (hq : (m.phils q).state = PState.HUNGRY) :
    (((m.forks (left_pos m q)).is_used = true ∨ (m.forks (right_pos m q)).is_used = true) →
      try_to_eat m q = m ∧ ((try_to_eat m q).phils q).state = PState.HUNGRY) ∧
    (((m.forks (left_pos m q)).is_used = false ∧ (m.forks (right_pos m q)).is_used = false) →
      (try_to_eat m q = m ↔ yield_condition m q) ∧
      (¬yield_condition m q →
        (try_to_eat m q).forks (left_pos m q) = { is_used := true, owner := some q } ∧
        (try_to_eat m q).forks (right_pos m q) = { is_used := true, owner := some q } ∧
        ((try_to_eat m q).phils q).state = PState.EATING ∧
        (∀ p, p ≠ left_pos m q → p ≠ right_pos m q →
          (try_to_eat m q).forks p = m.forks p))) := by
  have e : try_to_eat m q = eat_strategy_cooperative m q := by
    unfold try_to_eat; rw [hst]
  constructor
  · intro hor
    rw [e]
    simp only [eat_strategy_cooperative]
    rw [if_pos hor]
    exact ⟨rfl, hq⟩
  · rintro ⟨hl, hr⟩
    have hneg : ¬((m.forks (left_pos m q)).is_used = true
        ∨ (m.forks (right_pos m q)).is_used = true) := by
      rintro (h | h)
      · rw [hl] at h; cases h
      · rw [hr] at h; cases h
    rw [e]
    simp only [eat_strategy_cooperative]
    rw [if_neg hneg]
    by_cases hy : should_yield m q = true
    · rw [if_pos hy]
      refine ⟨⟨fun _ => (should_yield_iff m q).mp hy, fun _ => rfl⟩, fun hny => ?_⟩
      exact absurd ((should_yield_iff m q).mp hy) hny
    · rw [if_neg hy]
      constructor
      · constructor
        · intro hres
          exfalso
          have hstate : ((start_eating
              (updateFork (updateFork m (left_pos m q)
                  (fun f => { f with is_used := true, owner := some q }))
                (right_pos m q) (fun f => { f with is_used := true, owner := some q }))
              q).phils q).state = PState.EATING := by
            unfold start_eating
            rw [updatePhil_phils, if_pos rfl]
          rw [hres, hq] at hstate
          exact PState.noConfusion hstate
        · intro hy2
          exact absurd ((should_yield_iff m q).mpr hy2) hy
      · intro _
        refine ⟨?_, ?_, ?_, ?_⟩
        · simp only [start_eating_forks, updateFork_forks]
          by_cases hlr : left_pos m q = right_pos m q <;> simp [hlr]
        · simp only [start_eating_forks, updateFork_forks]
          simp
        · unfold start_eating
          rw [updatePhil_phils, if_pos rfl]
        · intro p hp1 hp2
          simp only [start_eating_forks, updateFork_forks, if_neg hp2, if_neg hp1]

/-- A four-node cooperative scenario: two philosophers, both hungry with
equal waiting times, all forks free. -/
def coop_state : Model :=
  updatePhil (updatePhil (initModel 2 Strategy.Cooperative 0 0) 0
    (fun p => { p with state := PState.HUNGRY })) 2
    (fun p => { p with state := PState.HUNGRY })

/-- Witness for C5: philosopher 2 yields to the lower-positioned hungry
neighbor 0, while philosopher 0 does not yield and eats. -/
theorem C5_cooperative_yield_witness :
    try_to_eat coop_state 2 = coop_state ∧
      ((try_to_eat coop_state 0).phils 0).state = PState.EATING :=
  ⟨((C5_cooperative_yield coop_state 2 (by decide) (by decide)).2
      ⟨by decide, by decide⟩).1.mpr ⟨0, by decide, by decide, by decide, by decide⟩,
   (((C5_cooperative_yield coop_state 0 (by decide) (by decide)).2
      ⟨by decide, by decide⟩).2
      (fun hy2 => absurd ((should_yield_iff coop_state 0).mpr hy2) (by decide))).2.2.1⟩

/-- C6: under the Naive strategy a hungry philosopher first claims the left
fork when it does not own it and that fork is free; then, owning the left
fork (possibly from an earlier tick) with the right fork free, it claims the
right fork and starts eating; in every other case it stays hungry, the right
fork is untouched, and a left fork it already owned is kept, not released. -/
theorem C6_naive_left_then_right (m : Model) (q : Nat)
    (hst : m.strategy = Strategy.Naive) (hq : (m.phils q).state = PState.HUNGRY)
    (hP : 2 ≤ m.num_philosophers) :
    (((m.forks (left_pos m q)).owner ≠ some q ∧ (m.forks (left_pos m q)).is_used = false) →
      (try_to_eat m q).forks (left_pos m q) = { is_used := true, owner := some q }) ∧
    ((((m.forks (left_pos m q)).owner = some q ∨ (m.forks (left_pos m q)).is_used = false) ∧
        (m.forks (right_pos m q)).is_used = false) →
      (try_to_eat m q).forks (right_pos m q) = { is_used := true, owner := some q } ∧
        ((try_to_eat m q).phils q).state = PState.EATING) ∧
    ((¬(((m.forks (left_pos m q)).owner = some q ∨ (m.forks (left_pos m q)).is_used = false) ∧
        (m.forks (right_pos m q)).is_used = false)) →
      ((try_to_eat m q).phils q).state = PState.HUNGRY ∧
        (try_to_eat m q).forks (right_pos m q) = m.forks (right_pos m q) ∧
        ((m.forks (left_pos m q)).owner = some q →
          (try_to_eat m q).forks (left_pos m q) = m.forks (left_pos m q))) ∧
    (((m.forks (left_pos m q)).owner ≠ some q ∧ (m.forks (left_pos m q)).is_used = true) →
      try_to_eat m q = m) ∧
    (∀ p, p ≠ left_pos m q → p ≠ right_pos m q → (try_to_eat m q).forks p = m.forks p) := by
  have e : try_to_eat m q = eat_strategy_naive m q := by
    unfold try_to_eat; rw [hst]
  have hlr := left_pos_ne_right_pos m q hP
  rw [e]
  simp only [eat_strategy_naive]
  by_cases hcl : (m.forks (left_pos m q)).owner ≠ some q
      ∧ (m.forks (left_pos m q)).is_used = false
  · rw [if_pos hcl]
    have hown : ((updateFork m (left_pos m q)
        (fun f => { f with is_used := true, owner := some q })).forks
          (left_pos m q)).owner = some q := by simp
    rw [if_pos hown]
    have hrp : (updateFork m (left_pos m q)
        (fun f => { f with is_used := true, owner := some q })).forks (right_pos m q)
          = m.forks (right_pos m q) := by
      rw [updateFork_forks, if_neg (fun h => hlr h.symm)]
    rw [hrp]
    by_cases hrf : (m.forks (right_pos m q)).is_used = false
    · rw [if_pos hrf]
      refine ⟨fun _ => ?_, fun _ => ⟨?_, ?_⟩, fun hcon => ?_, fun hdl => ?_,
        fun p hp1 hp2 => ?_⟩
      · simp only [start_eating_forks, updateFork_forks, if_neg hlr]
        simp
      · simp only [start_eating_forks, updateFork_forks]
        simp
      · unfold start_eating
        rw [updatePhil_phils, if_pos rfl]
      · exact absurd ⟨Or.inr hcl.2, hrf⟩ hcon
      · rw [hcl.2] at hdl
        cases hdl.2
      · simp only [start_eating_forks, updateFork_forks, if_neg hp2, if_neg hp1]
    · rw [if_neg hrf]
      refine ⟨fun _ => ?_, fun hb => ?_, fun _ => ⟨?_, ?_, ?_⟩, fun hdl => ?_,
        fun p hp1 hp2 => ?_⟩
      · simp
      · exact absurd hb.2 hrf
      · rw [updateFork_phils]; exact hq
      · exact hrp
      · intro hL; exact absurd hL hcl.1
      · rw [hcl.2] at hdl
        cases hdl.2
      · rw [updateFork_forks, if_neg hp1]
  · rw [if_neg hcl]
    by_cases how : (m.forks (left_pos m q)).owner = some q
    · rw [if_pos how]
      by_cases hrf : (m.forks (right_pos m q)).is_used = false
      · rw [if_pos hrf]
        refine ⟨fun ha => absurd how ha.1, fun _ => ⟨?_, ?_⟩, fun hcon => ?_,
          fun hdl => absurd how hdl.1, fun p hp1 hp2 => ?_⟩
        · simp only [start_eating_forks, updateFork_forks]
          simp
        · unfold start_eating
          rw [updatePhil_phils, if_pos rfl]
        · exact absurd ⟨Or.inl how, hrf⟩ hcon
        · simp only [start_eating_forks, updateFork_forks, if_neg hp2]
      · rw [if_neg hrf]
        exact ⟨fun ha => absurd how ha.1, fun hb => absurd hb.2 hrf,
          fun _ => ⟨hq, rfl, fun _ => rfl⟩, fun hdl => absurd how hdl.1,
          fun p _ _ => rfl⟩
    · rw [if_neg how]
      refine ⟨fun ha => absurd ha hcl, fun hb => ?_, fun _ => ⟨hq, rfl, fun _ => rfl⟩,
        fun _ => rfl, fun p _ _ => rfl⟩
      rcases hb.1 with h1 | h1
      · exact absurd h1 how
      · exact absurd ⟨how, h1⟩ hcl

/-- A four-node naive scenario: two hungry philosophers, all forks free. -/
def naive_state : Model :=
  updatePhil (updatePhil (initModel 2 Strategy.Naive 0 0) 0
    (fun p => { p with state := PState.HUNGRY })) 2
    (fun p => { p with state := PState.HUNGRY })

/-- The same scenario after philosopher 2 claimed fork 1, the right fork of
philosopher 0. -/
def naive_state2 : Model :=
  updateFork naive_state 1 (fun f => { f with is_used := true, owner := some 2 })

/-- Witness for C6: with both forks free philosopher 0 eats; with its right
fork held by philosopher 2 it claims the left fork and stays hungry. -/
theorem C6_naive_left_then_right_witness :
    ((try_to_eat naive_state 0).phils 0).state = PState.EATING ∧
      (try_to_eat naive_state2 0).forks (left_pos naive_state2 0)
        = { is_used := true, owner := some 0 } ∧
      ((try_to_eat naive_state2 0).phils 0).state = PState.HUNGRY :=
  ⟨((C6_naive_left_then_right naive_state 0 (by decide) (by decide) (by decide)).2.1
      ⟨Or.inr (by decide), by decide⟩).2,
   (C6_naive_left_then_right naive_state2 0 (by decide) (by decide) (by decide)).1
      ⟨by decide, by decide⟩,
   ((C6_naive_left_then_right naive_state2 0 (by decide) (by decide) (by decide)).2.2.1
      (by decide)).1⟩

/-- The philosopher record produced by `start_eating` for the acting
philosopher. -/
theorem start_eating_phils_self (m : Model) (q : Nat) :
    (start_eating m q).phils q = { m.phils q with
      total_wait_time := (m.phils q).total_wait_time + (m.phils q).ticks_since_state_change,
      eating_count := (m.phils q).eating_count + 1,
      state := PState.EATING,
      ticks_since_state_change := 0 } := by
  unfold start_eating
  rw [updatePhil_phils, if_pos rfl]

/-- A strategy attempt never touches another philosopher record. -/
theorem eat_strategy_naive_phils_ne (m : Model) (q x : Nat) (hx : x ≠ q) :
    (eat_strategy_naive m q).phils x = m.phils x := by
  simp only [eat_strategy_naive]
  repeat' split
  all_goals
    first
      | rfl
      | (unfold start_eating; rw [updatePhil_phils, if_neg hx]; rfl)

theorem eat_strategy_atomic_phils_ne (m : Model) (q x : Nat) (hx : x ≠ q) :
    (eat_strategy_atomic m q).phils x = m.phils x := by
  simp only [eat_strategy_atomic]
  repeat' split
  all_goals
    first
      | rfl
      | (unfold start_eating; rw [updatePhil_phils, if_neg hx]; rfl)

theorem eat_strategy_cooperative_phils_ne (m : Model) (q x : Nat) (hx : x ≠ q) :
    (eat_strategy_cooperative m q).phils x = m.phils x := by
  simp only [eat_strategy_cooperative]
  repeat' split
  all_goals
    first
      | rfl
      | (unfold start_eating; rw [updatePhil_phils, if_neg hx]; rfl)

theorem try_to_eat_phils_ne (m : Model) (q x : Nat) (hx : x ≠ q) :
    (try_to_eat m q).phils x = m.phils x := by
  unfold try_to_eat
  cases m.strategy
  · exact eat_strategy_naive_phils_ne m q x hx
  · exact eat_strategy_atomic_phils_ne m q x hx
  · exact eat_strategy_cooperative_phils_ne m q x hx

/-- A philosopher tick never touches another philosopher record. -/
theorem phil_step_phils_ne (m : Model) (q : Nat) (r : ℚ) (x : Nat) (hx : x ≠ q) :
    (phil_step m q r).phils x = m.phils x := by
  simp only [phil_step]
  split
  · rw [updatePhil_phils, if_neg hx, updatePhil_phils, if_neg hx]
  · split
    · rw [try_to_eat_phils_ne _ _ _ hx, updatePhil_phils, if_neg hx]
    · split
      · rw [updatePhil_phils, if_neg hx, put_down_forks_phils, updatePhil_phils, if_neg hx]
      · rw [updatePhil_phils, if_neg hx]

/-- A strategy attempt either leaves the acting philosopher record unchanged
or produces exactly the `start_eating` record. -/
theorem try_to_eat_phils_self (m : Model) (q : Nat) :
    (try_to_eat m q).phils q = m.phils q ∨
    (try_to_eat m q).phils q = { m.phils q with
      total_wait_time := (m.phils q).total_wait_time + (m.phils q).ticks_since_state_change,
      eating_count := (m.phils q).eating_count + 1,
      state := PState.EATING,
      ticks_since_state_change := 0 } := by
  unfold try_to_eat
  cases m.strategy
  · simp only [eat_strategy_naive]
    by_cases hcl : (m.forks (left_pos m q)).owner ≠ some q
        ∧ (m.forks (left_pos m q)).is_used = false
    · rw [if_pos hcl]
      split
      · split
        · right
          rw [start_eating_phils_self]
          rfl
        · exact Or.inl rfl
      · exact Or.inl rfl
    · rw [if_neg hcl]
      split
      · split
        · right
          rw [start_eating_phils_self]
          rfl
        · exact Or.inl rfl
      · exact Or.inl rfl
  · simp only [eat_strategy_atomic]
    split
    · right
      rw [start_eating_phils_self]
      rfl
    · exact Or.inl rfl
  · simp only [eat_strategy_cooperative]
    split
    · exact Or.inl rfl
    · split
      · exact Or.inl rfl
      · right
        rw [start_eating_phils_self]
        rfl

/-- Exhaustive description of what one tick does to the acting philosopher
record: become hungry, attempt to eat (failure or success), stop eating, or
just age by one tick. -/
theorem phil_step_phils_self (m : Model) (q : Nat) (r : ℚ) :
    ((m.phils q).state = PState.THINKING ∧ r < m.hungry_chance ∧
      (phil_step m q r).phils q
        = { m.phils q with state := PState.HUNGRY, ticks_since_state_change := 0 }) ∨
    ((m.phils q).state = PState.HUNGRY ∧
      ((phil_step m q r).phils q
          = { m.phils q with
              ticks_since_state_change := (m.phils q).ticks_since_state_change + 1 } ∨
       (phil_step m q r).phils q
          = { m.phils q with
              total_wait_time := (m.phils q).total_wait_time
                + ((m.phils q).ticks_since_state_change + 1),
              eating_count := (m.phils q).eating_count + 1,
              state := PState.EATING,
              ticks_since_state_change := 0 })) ∨
    ((m.phils q).state = PState.EATING ∧ r < m.full_chance ∧
      (phil_step m q r).phils q
        = { m.phils q with
            state := PState.THINKING,
            total_eaten := (m.phils q).total_eaten + 1,
            ticks_since_state_change := 0 }) ∨
    ((phil_step m q r).phils q
        = { m.phils q with
            ticks_since_state_change := (m.phils q).ticks_since_state_change + 1 }) := by
  simp only [phil_step]
  set m1 := updatePhil m q (fun p =>
    { p with ticks_since_state_change := p.ticks_since_state_change + 1 }) with hm1
  have hq1 : m1.phils q
      = { m.phils q with
          ticks_since_state_change := (m.phils q).ticks_since_state_change + 1 } := by
    rw [hm1, updatePhil_phils, if_pos rfl]
  by_cases hc1 : (m1.phils q).state = PState.THINKING ∧ r < m1.hungry_chance
  · rw [if_pos hc1]
    left
    refine ⟨?_, hc1.2, ?_⟩
    · rw [← hc1.1, hq1]
    · rw [updatePhil_phils, if_pos rfl, hq1]
  · rw [if_neg hc1]
    by_cases hc2 : (m1.phils q).state = PState.HUNGRY
    · rw [if_pos hc2]
      right; left
      refine ⟨by rw [← hc2, hq1], ?_⟩
      rcases try_to_eat_phils_self m1 q with h | h
      · left
        rw [h, hq1]
      · right
        rw [h, hq1]
    · rw [if_neg hc2]
      by_cases hc3 : (m1.phils q).state = PState.EATING ∧ r < m1.full_chance
      · rw [if_pos hc3]
        right; right; left
        refine ⟨by rw [← hc3.1, hq1], hc3.2, ?_⟩
        rw [updatePhil_phils, if_pos rfl, put_down_forks_phils, hq1]
      · rw [if_neg hc3]
        right; right; right
        exact hq1

/-- C7: over one tick of the acting philosopher, `total_wait_time` and
`eating_count` change exactly at a Hungry-to-Eating transition, where the
wait time grows by the tick counter at the moment of the transition (the
counter is incremented at the top of `step`, so this is the pre-step counter
plus one), the eating count grows by one and the tick counter resets to
zero; in every other case both are unchanged, and the tick of one
philosopher never touches another philosopher record. -/
theorem C7_wait_time_accounting (m : Model) (q : Nat) (r : ℚ) :
    (((m.phils q).state = PState.HUNGRY
        ∧ ((phil_step m q r).phils q).state = PState.EATING) →
      ((phil_step m q r).phils q).total_wait_time
          = (m.phils q).total_wait_time + ((m.phils q).ticks_since_state_change + 1) ∧
        ((phil_step m q r).phils q).eating_count = (m.phils q).eating_count + 1 ∧
        ((phil_step m q r).phils q).ticks_since_state_change = 0) ∧
    ((¬((m.phils q).state = PState.HUNGRY
        ∧ ((phil_step m q r).phils q).state = PState.EATING)) →
      ((phil_step m q r).phils q).total_wait_time = (m.phils q).total_wait_time ∧
        ((phil_step m q r).phils q).eating_count = (m.phils q).eating_count) ∧
    (∀ x, x ≠ q → (phil_step m q r).phils x = m.phils x) := by
  refine ⟨?_, ?_, fun x hx => phil_step_phils_ne m q r x hx⟩
  · rintro ⟨hpre, hpost⟩
    rcases phil_step_phils_self m q r with ⟨h1, _, he⟩ | ⟨h1, he | he⟩ | ⟨h1, _, he⟩ | he
    · rw [h1] at hpre
      exact PState.noConfusion hpre
    · rw [he] at hpost
      have h2 : (m.phils q).state = PState.EATING := hpost
      rw [hpre] at h2
      exact PState.noConfusion h2
    · rw [he]
      exact ⟨rfl, rfl, rfl⟩
    · rw [h1] at hpre
      exact PState.noConfusion hpre
    · rw [he] at hpost
      have h2 : (m.phils q).state = PState.EATING := hpost
      rw [hpre] at h2
      exact PState.noConfusion h2
  · intro hnot
    rcases phil_step_phils_self m q r with ⟨h1, _, he⟩ | ⟨h1, he | he⟩ | ⟨h1, _, he⟩ | he
    · rw [he]
      exact ⟨rfl, rfl⟩
    · rw [he]
      exact ⟨rfl, rfl⟩
    · exact absurd ⟨h1, by rw [he]⟩ hnot
    · rw [he]
      exact ⟨rfl, rfl⟩
    · rw [he]
      exact ⟨rfl, rfl⟩

/-- Witness for C7: philosopher 0, hungry with counter 0 in the one-tick
scenario, eats and records one tick of waiting. -/
theorem C7_wait_time_accounting_witness :
    ((phil_step witness_state1 0 0).phils 0).total_wait_time
        = (witness_state1.phils 0).total_wait_time
          + ((witness_state1.phils 0).ticks_since_state_change + 1) ∧
      ((phil_step witness_state1 0 0).phils 0).eating_count
        = (witness_state1.phils 0).eating_count + 1 ∧
      ((phil_step witness_state1 0 0).phils 0).ticks_since_state_change = 0 :=
  (C7_wait_time_accounting witness_state1 0 0).1 ⟨by decide, by decide⟩

/-- C8: the recorded metrics are pure functions of the state (mutation-free
by construction in this embedding); the average wait time is the quotient of
the summed wait times by the summed eating counts when anyone has eaten and
zero otherwise; the throughput is total consumption divided by the step
counter when it is positive and zero at step zero, so throughput times
steps elapsed equals total consumption. -/
theorem C8_metrics_consistency (m : Model) :
    (0 < sum_eating_count m →
      reporter_avg_wait_time m
        = (sum_total_wait_time m : ℚ) / (sum_eating_count m : ℚ)) ∧
    (sum_eating_count m = 0 → reporter_avg_wait_time m = 0) ∧
    (0 < m.steps →
      reporter_throughput m = (sum_total_eaten m : ℚ) / (m.steps : ℚ)) ∧
    (m.steps = 0 → reporter_throughput m = 0) ∧
    (0 < m.steps →
      reporter_throughput m * (m.steps : ℚ) = (sum_total_eaten m : ℚ)) := by
  refine ⟨fun h => ?_, fun h => ?_, fun h => ?_, fun h => ?_, fun h => ?_⟩
  · unfold reporter_avg_wait_time
    rw [if_pos h]
  · unfold reporter_avg_wait_time
    rw [if_neg (by omega)]
  · unfold reporter_throughput
    rw [if_pos h]
  · unfold reporter_throughput
    rw [if_neg (by omega)]
  · unfold reporter_throughput
    rw [if_pos h]
    exact div_mul_cancel₀ _ (Nat.cast_ne_zero.mpr (by omega))

/-- A state with nonzero counters used to witness the metric identities. -/
def metrics_state : Model :=
  { initModel 2 Strategy.Naive 0 0 with
    steps := 5
    phils := fun _ =>
      { state := PState.THINKING, total_eaten := 3, ticks_since_state_change := 0,
        total_wait_time := 4, eating_count := 2 } }

/-- Witness for C8 at a state with counters 8, 4, 6 over 5 steps, plus the
zero cases at the initial state. -/
theorem C8_metrics_consistency_witness :
    reporter_avg_wait_time metrics_state
        = (sum_total_wait_time metrics_state : ℚ) / (sum_eating_count metrics_state : ℚ) ∧
      reporter_throughput metrics_state * (metrics_state.steps : ℚ)
        = (sum_total_eaten metrics_state : ℚ) ∧
      reporter_avg_wait_time (initModel 2 Strategy.Naive 0 0) = 0 ∧
      reporter_throughput (initModel 2 Strategy.Naive 0 0) = 0 :=
  ⟨(C8_metrics_consistency metrics_state).1 (by decide),
   (C8_metrics_consistency metrics_state).2.2.2.2 (by decide),
   (C8_metrics_consistency (initModel 2 Strategy.Naive 0 0)).2.1 (by decide),
   (C8_metrics_consistency (initModel 2 Strategy.Naive 0 0)).2.2.2.1 rfl⟩

/-- C10: the reporter dictionary always carries exactly the ten
per-philosopher entries `P0` to `P9`; an index with no philosopher at ring
position `2 i` (exactly the indices at or beyond `num_philosophers`) reports
zero, and an index with a philosopher reports that philosopher record field
`total_eaten`. -/
theorem C10_ten_reporters (m : Model) :
    (individual_reporters m).length = 10 ∧
    individual_reporters m = (List.range 10).map (fun i => reporter_P m i) ∧
    (∀ i, m.num_philosophers ≤ i → reporter_P m i = 0) ∧
    (∀ i, i < m.num_philosophers → reporter_P m i = (m.phils (2 * i)).total_eaten) := by
  refine ⟨by simp [individual_reporters], rfl, fun i hi => ?_, fun i hi => ?_⟩
  · unfold reporter_P
    rw [if_neg]
    intro hmem
    unfold phil_positions at hmem
    simp only [List.mem_map, List.mem_range] at hmem
    obtain ⟨j, hj, he⟩ := hmem
    omega
  · unfold reporter_P
    rw [if_pos]
    unfold phil_positions
    simp only [List.mem_map, List.mem_range]
    exact ⟨i, hi, rfl⟩

/-- Witness for C10: with two philosophers, reporter `P5` reads 0 and `P1`
reads the consumption of the philosopher at ring position 2. -/
theorem C10_ten_reporters_witness :
    reporter_P metrics_state 5 = 0 ∧
      reporter_P metrics_state 1 = (metrics_state.phils 2).total_eaten :=
  ⟨(C10_ten_reporters metrics_state).2.2.1 5 (by decide),
   (C10_ten_reporters metrics_state).2.2.2 1 (by decide)⟩

/-! ### The concrete scenario of the spec: three philosophers, Atomic
strategy, certain hunger, never full -/

/-- A thinking philosopher with hunger chance 1 and an in-range draw becomes
hungry and touches nothing else. -/
theorem phil_step_thinking (m : Model) (q : Nat) (r : ℚ)
    (hh : m.hungry_chance = 1) (hs : (m.phils q).state = PState.THINKING)
    (hr : r < 1) :
    (∀ x, (phil_step m q r).phils x
        = if x = q
          then { m.phils x with state := PState.HUNGRY, ticks_since_state_change := 0 }
          else m.phils x) ∧
    (phil_step m q r).forks = m.forks ∧
    (phil_step m q r).num_philosophers = m.num_philosophers ∧
    (phil_step m q r).strategy = m.strategy ∧
    (phil_step m q r).hungry_chance = m.hungry_chance ∧
    (phil_step m q r).full_chance = m.full_chance ∧
    (phil_step m q r).steps = m.steps := by
  simp only [phil_step]
  rw [if_pos ?hc]
  case hc =>
    constructor
    · rw [updatePhil_phils, if_pos rfl]
      exact hs
    · show r < m.hungry_chance
      rw [hh]
      exact hr
  refine ⟨fun x => ?_, rfl, rfl, rfl, rfl, rfl, rfl⟩
  by_cases hx : x = q
  · rw [updatePhil_phils, if_pos hx, updatePhil_phils, if_pos hx, if_pos hx]
  · rw [updatePhil_phils, if_neg hx, updatePhil_phils, if_neg hx, if_neg hx]

/-- Three ticks of thinking philosophers with certain hunger, in any order
of three distinct positions, make exactly those three hungry. -/
theorem tick1_generic (m : Model) (a b c : Nat) (d : Nat → ℚ)
    (hh : m.hungry_chance = 1)
    (hta : (m.phils a).state = PState.THINKING)
    (htb : (m.phils b).state = PState.THINKING)
    (htc : (m.phils c).state = PState.THINKING)
    (hba : b ≠ a) (hca : c ≠ a) (hcb : c ≠ b)
    (hda : d a < 1) (hdb : d b < 1) (hdc : d c < 1) :
    (∀ x, (phil_step (phil_step (phil_step m a (d a)) b (d b)) c (d c)).phils x
        = if x = a ∨ x = b ∨ x = c
          then { m.phils x with state := PState.HUNGRY, ticks_since_state_change := 0 }
          else m.phils x) ∧
    (phil_step (phil_step (phil_step m a (d a)) b (d b)) c (d c)).forks = m.forks ∧
    (phil_step (phil_step (phil_step m a (d a)) b (d b)) c (d c)).num_philosophers
      = m.num_philosophers ∧
    (phil_step (phil_step (phil_step m a (d a)) b (d b)) c (d c)).strategy = m.strategy ∧
    (phil_step (phil_step (phil_step m a (d a)) b (d b)) c (d c)).hungry_chance
      = m.hungry_chance ∧
    (phil_step (phil_step (phil_step m a (d a)) b (d b)) c (d c)).full_chance
      = m.full_chance := by
  obtain ⟨L1p, L1f, L1n, L1s, L1h, L1c, L1t⟩ := phil_step_thinking m a (d a) hh hta hda
  have htb1 : ((phil_step m a (d a)).phils b).state = PState.THINKING := by
    rw [L1p b, if_neg hba]
    exact htb
  obtain ⟨L2p, L2f, L2n, L2s, L2h, L2c, L2t⟩ :=
    phil_step_thinking (phil_step m a (d a)) b (d b) (by rw [L1h, hh]) htb1 hdb
  have htc2 : ((phil_step (phil_step m a (d a)) b (d b)).phils c).state
      = PState.THINKING := by
    rw [L2p c, if_neg hcb, L1p c, if_neg hca]
    exact htc
  obtain ⟨L3p, L3f, L3n, L3s, L3h, L3c, L3t⟩ :=
    phil_step_thinking (phil_step (phil_step m a (d a)) b (d b)) c (d c)
      (by rw [L2h, L1h, hh]) htc2 hdc
  refine ⟨fun x => ?_, by rw [L3f, L2f, L1f], by rw [L3n, L2n, L1n],
    by rw [L3s, L2s, L1s], by rw [L3h, L2h, L1h], by rw [L3c, L2c, L1c]⟩
  rw [L3p x, L2p x, L1p x]
  by_cases hxc : x = c
  · have hxb : x ≠ b := fun e => hcb (hxc.symm.trans e)
    have hxa : x ≠ a := fun e => hca (hxc.symm.trans e)
    rw [if_pos hxc, if_neg hxb, if_neg hxa, if_pos (Or.inr (Or.inr hxc))]
  · by_cases hxb : x = b
    · have hxa : x ≠ a := fun e => hba (hxb.symm.trans e)
      rw [if_neg hxc, if_pos hxb, if_neg hxa, if_pos (Or.inr (Or.inl hxb))]
    · by_cases hxa : x = a
      · rw [if_neg hxc, if_neg hxb, if_pos hxa, if_pos (Or.inl hxa)]
      · rw [if_neg hxc, if_neg hxb, if_neg hxa,
          if_neg (fun hor => hor.elim hxa (fun h2 => h2.elim hxb hxc))]

/-- The relevant facts about the state reached after the first tick of the
concrete scenario of spec section 8. -/
def MidFacts (m : Model) : Prop :=
  m.num_philosophers = 3 ∧ m.strategy = Strategy.Atomic ∧ m.hungry_chance = 1 ∧
  m.full_chance = 0 ∧
  (∀ q ∈ ([0, 2, 4] : List Nat), (m.phils q).state = PState.HUNGRY) ∧
  (∀ p ∈ ([1, 3, 5] : List Nat), m.forks p = { is_used := false, owner := none })

/-- After one tick from the fresh scenario model, in any shuffle order with
in-range draws, all three philosophers are hungry and no fork is claimed. -/
theorem C9_tick1 (order : List Nat) (d : Nat → ℚ)
    (hperm : order.Perm ([0, 2, 4] : List Nat))
    (hd : ∀ q ∈ order, 0 ≤ d q ∧ d q < 1) :
    MidFacts (model_step (initModel 3 Strategy.Atomic 1 0) order d) := by
  have hlen : order.length = 3 := by simpa using hperm.length_eq
  match order, hlen, hperm, hd with
  | [a, b, c], _, hperm, hd =>
    have hnd : ([a, b, c] : List Nat).Nodup := hperm.nodup_iff.mpr (by decide)
    have h1 := List.nodup_cons.mp hnd
    have h2 := List.nodup_cons.mp h1.2
    have hba : b ≠ a := fun e => h1.1 (List.mem_cons.mpr (Or.inl e.symm))
    have hca : c ≠ a :=
      fun e => h1.1 (List.mem_cons.mpr (Or.inr (List.mem_singleton.mpr e.symm)))
    have hcb : c ≠ b := fun e => h2.1 (List.mem_singleton.mpr e.symm)
    have hcover : ∀ q ∈ ([0, 2, 4] : List Nat), q = a ∨ q = b ∨ q = c := by
      intro q hq
      have hmm := hperm.mem_iff.mpr hq
      simpa using hmm
    have e : model_step (initModel 3 Strategy.Atomic 1 0) [a, b, c] d
        = phil_step (phil_step (phil_step
            ({ initModel 3 Strategy.Atomic 1 0 with steps := 1 }) a (d a)) b (d b)) c
            (d c) := rfl
    rw [e]
    obtain ⟨Gp, Gf, Gn, Gs, Gh, Gc⟩ :=
      tick1_generic ({ initModel 3 Strategy.Atomic 1 0 with steps := 1 }) a b c d
        rfl rfl rfl rfl hba hca hcb
        (hd a (by simp)).2 (hd b (by simp)).2 (hd c (by simp)).2
    refine ⟨by rw [Gn]; rfl, by rw [Gs]; rfl, by rw [Gh]; rfl, by rw [Gc]; rfl, ?_, ?_⟩
    · intro q hq
      rw [Gp q, if_pos (hcover q hq)]
    · intro p _
      rw [Gf]
      rfl

/-- A hungry philosopher under Atomic with both adjacent forks free claims
both and eats; nothing else changes. -/
theorem phil_step_hungry_atomic_eats (m : Model) (q : Nat) (r : ℚ)
    (hst : m.strategy = Strategy.Atomic) (hs : (m.phils q).state = PState.HUNGRY)
    (hl : (m.forks (left_pos m q)).is_used = false)
    (hr : (m.forks (right_pos m q)).is_used = false) :
    (∀ x, (phil_step m q r).phils x
        = if x = q
          then { m.phils x with
              total_wait_time := (m.phils x).total_wait_time
                + ((m.phils x).ticks_since_state_change + 1),
              eating_count := (m.phils x).eating_count + 1,
              state := PState.EATING,
              ticks_since_state_change := 0 }
          else m.phils x) ∧
    (∀ p, (phil_step m q r).forks p
        = if p = left_pos m q ∨ p = right_pos m q
          then { is_used := true, owner := some q }
          else m.forks p) ∧
    (phil_step m q r).num_philosophers = m.num_philosophers ∧
    (phil_step m q r).strategy = m.strategy ∧
    (phil_step m q r).hungry_chance = m.hungry_chance ∧
    (phil_step m q r).full_chance = m.full_chance := by
  simp only [phil_step]
  rw [if_neg ?hth, if_pos ?hhu]
  case hth =>
    rintro ⟨h1, _⟩
    rw [updatePhil_phils, if_pos rfl] at h1
    have h2 : (m.phils q).state = PState.THINKING := h1
    rw [hs] at h2
    exact PState.noConfusion h2
  case hhu =>
    rw [updatePhil_phils, if_pos rfl]
    exact hs
  have e : try_to_eat (updatePhil m q fun p =>
      { p with ticks_since_state_change := p.ticks_since_state_change + 1 }) q
      = eat_strategy_atomic (updatePhil m q fun p =>
        { p with ticks_since_state_change := p.ticks_since_state_change + 1 }) q := by
    unfold try_to_eat
    rw [show (updatePhil m q fun p =>
      { p with ticks_since_state_change := p.ticks_since_state_change + 1 }).strategy
        = Strategy.Atomic from hst]
  rw [e]
  simp only [eat_strategy_atomic]
  have hl' : ((updatePhil m q fun p =>
      { p with ticks_since_state_change := p.ticks_since_state_change + 1 }).forks
        (left_pos (updatePhil m q fun p =>
          { p with ticks_since_state_change := p.ticks_since_state_change + 1 }) q)).is_used
      = false := hl
  have hr' : ((updatePhil m q fun p =>
      { p with ticks_since_state_change := p.ticks_since_state_change + 1 }).forks
        (right_pos (updatePhil m q fun p =>
          { p with ticks_since_state_change := p.ticks_since_state_change + 1 }) q)).is_used
      = false := hr
  rw [if_pos ⟨hl', hr'⟩]
  refine ⟨fun x => ?_, fun p => ?_, rfl, rfl, rfl, rfl⟩
  · by_cases hx : x = q
    · unfold start_eating
      rw [updatePhil_phils, if_pos hx, updateFork_phils, updateFork_phils,
        updatePhil_phils, if_pos hx, if_pos hx]
    · unfold start_eating
      rw [updatePhil_phils, if_neg hx, updateFork_phils, updateFork_phils,
        updatePhil_phils, if_neg hx, if_neg hx]
  · simp only [start_eating_forks, updateFork_forks, left_pos_updatePhil,
      right_pos_updatePhil, updatePhil_forks]
    by_cases hp1 : p = right_pos m q
    · rw [if_pos hp1, if_pos (Or.inr hp1)]
    · rw [if_neg hp1]
      by_cases hp2 : p = left_pos m q
      · rw [if_pos hp2, if_pos (Or.inl hp2)]
      · rw [if_neg hp2, if_neg (fun hor => hor.elim hp2 hp1)]

/-- A hungry philosopher under Atomic with a used adjacent fork only ages by
one tick; forks are untouched. -/
theorem phil_step_hungry_atomic_fails (m : Model) (q : Nat) (r : ℚ)
    (hst : m.strategy = Strategy.Atomic) (hs : (m.phils q).state = PState.HUNGRY)
    (hor : (m.forks (left_pos m q)).is_used = true
      ∨ (m.forks (right_pos m q)).is_used = true) :
    (∀ x, (phil_step m q r).phils x
        = if x = q
          then { m.phils x with
              ticks_since_state_change := (m.phils x).ticks_since_state_change + 1 }
          else m.phils x) ∧
    (phil_step m q r).forks = m.forks ∧
    (phil_step m q r).num_philosophers = m.num_philosophers ∧
    (phil_step m q r).strategy = m.strategy ∧
    (phil_step m q r).hungry_chance = m.hungry_chance ∧
    (phil_step m q r).full_chance = m.full_chance := by
  simp only [phil_step]
  rw [if_neg ?hth, if_pos ?hhu]
  case hth =>
    rintro ⟨h1, _⟩
    rw [updatePhil_phils, if_pos rfl] at h1
    have h2 : (m.phils q).state = PState.THINKING := h1
    rw [hs] at h2
    exact PState.noConfusion h2
  case hhu =>
    rw [updatePhil_phils, if_pos rfl]
    exact hs
  have e : try_to_eat (updatePhil m q fun p =>
      { p with ticks_since_state_change := p.ticks_since_state_change + 1 }) q
      = eat_strategy_atomic (updatePhil m q fun p =>
        { p with ticks_since_state_change := p.ticks_since_state_change + 1 }) q := by
    unfold try_to_eat
    rw [show (updatePhil m q fun p =>
      { p with ticks_since_state_change := p.ticks_since_state_change + 1 }).strategy
        = Strategy.Atomic from hst]
  rw [e]
  simp only [eat_strategy_atomic]
  rw [if_neg ?hfork]
  case hfork =>
    rintro ⟨hcon1, hcon2⟩
    have hx1 : (m.forks (left_pos m q)).is_used = false := hcon1
    have hx2 : (m.forks (right_pos m q)).is_used = false := hcon2
    rcases hor with h | h
    · rw [hx1] at h
      cases h
    · rw [hx2] at h
      cases h
  refine ⟨fun x => ?_, rfl, rfl, rfl, rfl, rfl⟩
  rw [updatePhil_phils]

@[simp]
theorem forks_steps_set (m : Model) (k : Nat) :
    ({ m with steps := k } : Model).forks = m.forks := rfl

@[simp]
theorem phils_steps_set (m : Model) (k : Nat) :
    ({ m with steps := k } : Model).phils = m.phils := rfl

@[simp]
theorem strategy_steps_set (m : Model) (k : Nat) :
    ({ m with steps := k } : Model).strategy = m.strategy := rfl

@[simp]
theorem num_steps_set (m : Model) (k : Nat) :
    ({ m with steps := k } : Model).num_philosophers = m.num_philosophers := rfl

@[simp]
theorem left_pos_steps_set (m : Model) (k q : Nat) :
    left_pos ({ m with steps := k } : Model) q = left_pos m q := rfl

@[simp]
theorem right_pos_steps_set (m : Model) (k q : Nat) :
    right_pos ({ m with steps := k } : Model) q = right_pos m q := rfl

/-- The six orders a shuffle of the three philosophers can produce. -/
theorem perm024_cases (l : List Nat) (h : l.Perm ([0, 2, 4] : List Nat)) :
    l = [0, 2, 4] ∨ l = [0, 4, 2] ∨ l = [2, 0, 4] ∨ l = [2, 4, 0]
      ∨ l = [4, 0, 2] ∨ l = [4, 2, 0] := by
  have hlen : l.length = 3 := by simpa using h.length_eq
  match l, hlen, h with
  | [a, b, c], _, h =>
    have ha : a ∈ ([0, 2, 4] : List Nat) := h.mem_iff.mp (by simp)
    have hb : b ∈ ([0, 2, 4] : List Nat) := h.mem_iff.mp (by simp)
    have hc : c ∈ ([0, 2, 4] : List Nat) := h.mem_iff.mp (by simp)
    simp only [List.mem_cons, List.mem_singleton, List.not_mem_nil, or_false] at ha hb hc
    rcases ha with rfl | rfl | rfl <;> rcases hb with rfl | rfl | rfl <;>
      rcases hc with rfl | rfl | rfl <;>
      first
        | exact absurd h (by decide)
        | decide


/-- After the second tick of the scenario, the first philosopher in the
shuffle order eats holding both adjacent forks, and the other two stay
hungry with at least one adjacent fork in use. -/
theorem C9_tick2 (m : Model) (hm : MidFacts m) (order : List Nat) (d : Nat → ℚ)
    (hperm : order.Perm ([0, 2, 4] : List Nat)) (f : Nat) (hf : order.head? = some f) :
    ((model_step m order d).phils f).state = PState.EATING ∧
    (model_step m order d).forks (left_pos m f) = { is_used := true, owner := some f } ∧
    (model_step m order d).forks (right_pos m f) = { is_used := true, owner := some f } ∧
    (∀ q ∈ ([0, 2, 4] : List Nat), q ≠ f →
      ((model_step m order d).phils q).state = PState.HUNGRY ∧
        (((model_step m order d).forks (left_pos m q)).is_used = true
          ∨ ((model_step m order d).forks (right_pos m q)).is_used = true)) := by
  obtain ⟨h3, hst, hh, hfc, hph, hfk⟩ := hm
  have hl0 : left_pos m 0 = 5 := by simp [left_pos, num_nodes, h3]
  have hr0 : right_pos m 0 = 1 := by simp [right_pos, num_nodes, h3]
  have hl2 : left_pos m 2 = 1 := by simp [left_pos, num_nodes, h3]
  have hr2 : right_pos m 2 = 3 := by simp [right_pos, num_nodes, h3]
  have hl4 : left_pos m 4 = 3 := by simp [left_pos, num_nodes, h3]
  have hr4 : right_pos m 4 = 5 := by simp [right_pos, num_nodes, h3]
  have hforkfree : ∀ p ∈ ([1, 3, 5] : List Nat), (m.forks p).is_used = false := by
    intro p hp
    rw [hfk p hp]
  rcases perm024_cases order hperm with rfl | rfl | rfl | rfl | rfl | rfl
  · obtain rfl : (0 : Nat) = f := Option.some.inj hf
    have e : model_step m [0, 2, 4] d
        = phil_step (phil_step (phil_step ({ m with steps := m.steps + 1 }) 0 (d 0))
            2 (d 2)) 4 (d 4) := rfl
    rw [e]
    obtain ⟨Ap, Af, An, As, Ah, Ac⟩ :=
      phil_step_hungry_atomic_eats ({ m with steps := m.steps + 1 }) 0 (d 0)
        (by simp only [strategy_steps_set]; exact hst)
        (by simp only [phils_steps_set]; exact hph 0 (by simp))
        (by simp only [forks_steps_set, left_pos_steps_set]
            rw [hl0]
            exact hforkfree 5 (by simp))
        (by simp only [forks_steps_set, right_pos_steps_set]
            rw [hr0]
            exact hforkfree 1 (by simp))
    set s1 := phil_step ({ m with steps := m.steps + 1 }) 0 (d 0) with hs1
    have hnum1 : s1.num_philosophers = m.num_philosophers := An
    have hshareB : (s1.forks 1).is_used = true := by
      rw [Af 1, if_pos (Or.inr (show (1 : Nat)
          = right_pos ({ m with steps := m.steps + 1 }) 0 from by
        simp only [right_pos_steps_set]
        rw [hr0]))]
    obtain ⟨Bp, Bf, Bn, Bs, Bh, Bc⟩ :=
      phil_step_hungry_atomic_fails s1 2 (d 2)
        (by rw [As]; simp only [strategy_steps_set]; exact hst)
        (by rw [Ap 2, if_neg (by decide : (2 : Nat) ≠ 0)]
            simp only [phils_steps_set]
            exact hph 2 (by simp))
        (Or.inl (by
          rw [left_pos_congr hnum1, hl2]
          exact hshareB))
    set s2 := phil_step s1 2 (d 2) with hs2
    have hnum2 : s2.num_philosophers = m.num_philosophers := by rw [Bn]; exact hnum1
    have hshareC : (s2.forks 5).is_used = true := by
      rw [Bf, Af 5, if_pos (Or.inl (show (5 : Nat)
          = left_pos ({ m with steps := m.steps + 1 }) 0 from by
        simp only [left_pos_steps_set]
        rw [hl0]))]
    obtain ⟨Cp, Cf, Cn, Cs, Ch, Cc⟩ :=
      phil_step_hungry_atomic_fails s2 4 (d 4)
        (by rw [Bs, As]; simp only [strategy_steps_set]; exact hst)
        (by rw [Bp 4, if_neg (by decide : (4 : Nat) ≠ 2), Ap 4,
              if_neg (by decide : (4 : Nat) ≠ 0)]
            simp only [phils_steps_set]
            exact hph 4 (by simp))
        (Or.inr (by
          rw [right_pos_congr hnum2, hr4]
          exact hshareC))
    refine ⟨?_, ?_, ?_, ?_⟩
    · rw [Cp 0, if_neg (by decide : (0 : Nat) ≠ 4), Bp 0,
        if_neg (by decide : (0 : Nat) ≠ 2), Ap 0, if_pos rfl]
    · rw [Cf, Bf, Af (left_pos m 0),
        if_pos (Or.inl (show left_pos m 0
          = left_pos ({ m with steps := m.steps + 1 }) 0 from rfl))]
    · rw [Cf, Bf, Af (right_pos m 0),
        if_pos (Or.inr (show right_pos m 0
          = right_pos ({ m with steps := m.steps + 1 }) 0 from rfl))]
    · intro q hq hqf
      simp only [List.mem_cons, List.mem_singleton, List.not_mem_nil, or_false] at hq
      rcases hq with rfl | rfl | rfl
      · exact absurd rfl hqf
      · refine ⟨?_, ?_⟩
        · rw [Cp 2, if_neg (by decide : (2 : Nat) ≠ 4), Bp 2, if_pos rfl]
          show (s1.phils 2).state = PState.HUNGRY
          rw [Ap 2, if_neg (by decide : (2 : Nat) ≠ 0)]
          simp only [phils_steps_set]
          exact hph 2 (by simp)
        · exact Or.inl (by
            rw [Cf, Bf, hl2]
            exact hshareB)
      · refine ⟨?_, ?_⟩
        · rw [Cp 4, if_pos rfl]
          show (s2.phils 4).state = PState.HUNGRY
          rw [Bp 4, if_neg (by decide : (4 : Nat) ≠ 2), Ap 4, if_neg (by decide : (4 : Nat) ≠ 0)]
          simp only [phils_steps_set]
          exact hph 4 (by simp)
        · exact Or.inr (by
            rw [Cf, hr4]
            exact hshareC)
  · obtain rfl : (0 : Nat) = f := Option.some.inj hf
    have e : model_step m [0, 4, 2] d
        = phil_step (phil_step (phil_step ({ m with steps := m.steps + 1 }) 0 (d 0))
            4 (d 4)) 2 (d 2) := rfl
    rw [e]
    obtain ⟨Ap, Af, An, As, Ah, Ac⟩ :=
      phil_step_hungry_atomic_eats ({ m with steps := m.steps + 1 }) 0 (d 0)
        (by simp only [strategy_steps_set]; exact hst)
        (by simp only [phils_steps_set]; exact hph 0 (by simp))
        (by simp only [forks_steps_set, left_pos_steps_set]
            rw [hl0]
            exact hforkfree 5 (by simp))
        (by simp only [forks_steps_set, right_pos_steps_set]
            rw [hr0]
            exact hforkfree 1 (by simp))
    set s1 := phil_step ({ m with steps := m.steps + 1 }) 0 (d 0) with hs1
    have hnum1 : s1.num_philosophers = m.num_philosophers := An
    have hshareB : (s1.forks 5).is_used = true := by
      rw [Af 5, if_pos (Or.inl (show (5 : Nat)
          = left_pos ({ m with steps := m.steps + 1 }) 0 from by
        simp only [left_pos_steps_set]
        rw [hl0]))]
    obtain ⟨Bp, Bf, Bn, Bs, Bh, Bc⟩ :=
      phil_step_hungry_atomic_fails s1 4 (d 4)
        (by rw [As]; simp only [strategy_steps_set]; exact hst)
        (by rw [Ap 4, if_neg (by decide : (4 : Nat) ≠ 0)]
            simp only [phils_steps_set]
            exact hph 4 (by simp))
        (Or.inr (by
          rw [right_pos_congr hnum1, hr4]
          exact hshareB))
    set s2 := phil_step s1 4 (d 4) with hs2
    have hnum2 : s2.num_philosophers = m.num_philosophers := by rw [Bn]; exact hnum1
    have hshareC : (s2.forks 1).is_used = true := by
      rw [Bf, Af 1, if_pos (Or.inr (show (1 : Nat)
          = right_pos ({ m with steps := m.steps + 1 }) 0 from by
        simp only [right_pos_steps_set]
        rw [hr0]))]
    obtain ⟨Cp, Cf, Cn, Cs, Ch, Cc⟩ :=
      phil_step_hungry_atomic_fails s2 2 (d 2)
        (by rw [Bs, As]; simp only [strategy_steps_set]; exact hst)
        (by rw [Bp 2, if_neg (by decide : (2 : Nat) ≠ 4), Ap 2,
              if_neg (by decide : (2 : Nat) ≠ 0)]
            simp only [phils_steps_set]
            exact hph 2 (by simp))
        (Or.inl (by
          rw [left_pos_congr hnum2, hl2]
          exact hshareC))
    refine ⟨?_, ?_, ?_, ?_⟩
    · rw [Cp 0, if_neg (by decide : (0 : Nat) ≠ 2), Bp 0,
        if_neg (by decide : (0 : Nat) ≠ 4), Ap 0, if_pos rfl]
    · rw [Cf, Bf, Af (left_pos m 0),
        if_pos (Or.inl (show left_pos m 0
          = left_pos ({ m with steps := m.steps + 1 }) 0 from rfl))]
    · rw [Cf, Bf, Af (right_pos m 0),
        if_pos (Or.inr (show right_pos m 0
          = right_pos ({ m with steps := m.steps + 1 }) 0 from rfl))]
    · intro q hq hqf
      simp only [List.mem_cons, List.mem_singleton, List.not_mem_nil, or_false] at hq
      rcases hq with rfl | rfl | rfl
      · exact absurd rfl hqf
      · refine ⟨?_, ?_⟩
        · rw [Cp 2, if_pos rfl]
          show (s2.phils 2).state = PState.HUNGRY
          rw [Bp 2, if_neg (by decide : (2 : Nat) ≠ 4), Ap 2, if_neg (by decide : (2 : Nat) ≠ 0)]
          simp only [phils_steps_set]
          exact hph 2 (by simp)
        · exact Or.inl (by
            rw [Cf, hl2]
            exact hshareC)
      · refine ⟨?_, ?_⟩
        · rw [Cp 4, if_neg (by decide : (4 : Nat) ≠ 2), Bp 4, if_pos rfl]
          show (s1.phils 4).state = PState.HUNGRY
          rw [Ap 4, if_neg (by decide : (4 : Nat) ≠ 0)]
          simp only [phils_steps_set]
          exact hph 4 (by simp)
        · exact Or.inr (by
            rw [Cf, Bf, hr4]
            exact hshareB)
  · obtain rfl : (2 : Nat) = f := Option.some.inj hf
    have e : model_step m [2, 0, 4] d
        = phil_step (phil_step (phil_step ({ m with steps := m.steps + 1 }) 2 (d 2))
            0 (d 0)) 4 (d 4) := rfl
    rw [e]
    obtain ⟨Ap, Af, An, As, Ah, Ac⟩ :=
      phil_step_hungry_atomic_eats ({ m with steps := m.steps + 1 }) 2 (d 2)
        (by simp only [strategy_steps_set]; exact hst)
        (by simp only [phils_steps_set]; exact hph 2 (by simp))
        (by simp only [forks_steps_set, left_pos_steps_set]
            rw [hl2]
            exact hforkfree 1 (by simp))
        (by simp only [forks_steps_set, right_pos_steps_set]
            rw [hr2]
            exact hforkfree 3 (by simp))
    set s1 := phil_step ({ m with steps := m.steps + 1 }) 2 (d 2) with hs1
    have hnum1 : s1.num_philosophers = m.num_philosophers := An
    have hshareB : (s1.forks 1).is_used = true := by
      rw [Af 1, if_pos (Or.inl (show (1 : Nat)
          = left_pos ({ m with steps := m.steps + 1 }) 2 from by
        simp only [left_pos_steps_set]
        rw [hl2]))]
    obtain ⟨Bp, Bf, Bn, Bs, Bh, Bc⟩ :=
      phil_step_hungry_atomic_fails s1 0 (d 0)
        (by rw [As]; simp only [strategy_steps_set]; exact hst)
        (by rw [Ap 0, if_neg (by decide : (0 : Nat) ≠ 2)]
            simp only [phils_steps_set]
            exact hph 0 (by simp))
        (Or.inr (by
          rw [right_pos_congr hnum1, hr0]
          exact hshareB))
    set s2 := phil_step s1 0 (d 0) with hs2
    have hnum2 : s2.num_philosophers = m.num_philosophers := by rw [Bn]; exact hnum1
    have hshareC : (s2.forks 3).is_used = true := by
      rw [Bf, Af 3, if_pos (Or.inr (show (3 : Nat)
          = right_pos ({ m with steps := m.steps + 1 }) 2 from by
        simp only [right_pos_steps_set]
        rw [hr2]))]
    obtain ⟨Cp, Cf, Cn, Cs, Ch, Cc⟩ :=
      phil_step_hungry_atomic_fails s2 4 (d 4)
        (by rw [Bs, As]; simp only [strategy_steps_set]; exact hst)
        (by rw [Bp 4, if_neg (by decide : (4 : Nat) ≠ 0), Ap 4,
              if_neg (by decide : (4 : Nat) ≠ 2)]
            simp only [phils_steps_set]
            exact hph 4 (by simp))
        (Or.inl (by
          rw [left_pos_congr hnum2, hl4]
          exact hshareC))
    refine ⟨?_, ?_, ?_, ?_⟩
    · rw [Cp 2, if_neg (by decide : (2 : Nat) ≠ 4), Bp 2,
        if_neg (by decide : (2 : Nat) ≠ 0), Ap 2, if_pos rfl]
    · rw [Cf, Bf, Af (left_pos m 2),
        if_pos (Or.inl (show left_pos m 2
          = left_pos ({ m with steps := m.steps + 1 }) 2 from rfl))]
    · rw [Cf, Bf, Af (right_pos m 2),
        if_pos (Or.inr (show right_pos m 2
          = right_pos ({ m with steps := m.steps + 1 }) 2 from rfl))]
    · intro q hq hqf
      simp only [List.mem_cons, List.mem_singleton, List.not_mem_nil, or_false] at hq
      rcases hq with rfl | rfl | rfl
      · refine ⟨?_, ?_⟩
        · rw [Cp 0, if_neg (by decide : (0 : Nat) ≠ 4), Bp 0, if_pos rfl]
          show (s1.phils 0).state = PState.HUNGRY
          rw [Ap 0, if_neg (by decide : (0 : Nat) ≠ 2)]
          simp only [phils_steps_set]
          exact hph 0 (by simp)
        · exact Or.inr (by
            rw [Cf, Bf, hr0]
            exact hshareB)
      · exact absurd rfl hqf
      · refine ⟨?_, ?_⟩
        · rw [Cp 4, if_pos rfl]
          show (s2.phils 4).state = PState.HUNGRY
          rw [Bp 4, if_neg (by decide : (4 : Nat) ≠ 0), Ap 4, if_neg (by decide : (4 : Nat) ≠ 2)]
          simp only [phils_steps_set]
          exact hph 4 (by simp)
        · exact Or.inl (by
            rw [Cf, hl4]
            exact hshareC)
  · obtain rfl : (2 : Nat) = f := Option.some.inj hf
    have e : model_step m [2, 4, 0] d
        = phil_step (phil_step (phil_step ({ m with steps := m.steps + 1 }) 2 (d 2))
            4 (d 4)) 0 (d 0) := rfl
    rw [e]
    obtain ⟨Ap, Af, An, As, Ah, Ac⟩ :=
      phil_step_hungry_atomic_eats ({ m with steps := m.steps + 1 }) 2 (d 2)
        (by simp only [strategy_steps_set]; exact hst)
        (by simp only [phils_steps_set]; exact hph 2 (by simp))
        (by simp only [forks_steps_set, left_pos_steps_set]
            rw [hl2]
            exact hforkfree 1 (by simp))
        (by simp only [forks_steps_set, right_pos_steps_set]
            rw [hr2]
            exact hforkfree 3 (by simp))
    set s1 := phil_step ({ m with steps := m.steps + 1 }) 2 (d 2) with hs1
    have hnum1 : s1.num_philosophers = m.num_philosophers := An
    have hshareB : (s1.forks 3).is_used = true := by
      rw [Af 3, if_pos (Or.inr (show (3 : Nat)
          = right_pos ({ m with steps := m.steps + 1 }) 2 from by
        simp only [right_pos_steps_set]
        rw [hr2]))]
    obtain ⟨Bp, Bf, Bn, Bs, Bh, Bc⟩ :=
      phil_step_hungry_atomic_fails s1 4 (d 4)
        (by rw [As]; simp only [strategy_steps_set]; exact hst)
        (by rw [Ap 4, if_neg (by decide : (4 : Nat) ≠ 2)]
            simp only [phils_steps_set]
            exact hph 4 (by simp))
        (Or.inl (by
          rw [left_pos_congr hnum1, hl4]
          exact hshareB))
    set s2 := phil_step s1 4 (d 4) with hs2
    have hnum2 : s2.num_philosophers = m.num_philosophers := by rw [Bn]; exact hnum1
    have hshareC : (s2.forks 1).is_used = true := by
      rw [Bf, Af 1, if_pos (Or.inl (show (1 : Nat)
          = left_pos ({ m with steps := m.steps + 1 }) 2 from by
        simp only [left_pos_steps_set]
        rw [hl2]))]
    obtain ⟨Cp, Cf, Cn, Cs, Ch, Cc⟩ :=
      phil_step_hungry_atomic_fails s2 0 (d 0)
        (by rw [Bs, As]; simp only [strategy_steps_set]; exact hst)
        (by rw [Bp 0, if_neg (by decide : (0 : Nat) ≠ 4), Ap 0,
              if_neg (by decide : (0 : Nat) ≠ 2)]
            simp only [phils_steps_set]
            exact hph 0 (by simp))
        (Or.inr (by
          rw [right_pos_congr hnum2, hr0]
          exact hshareC))
    refine ⟨?_, ?_, ?_, ?_⟩
    · rw [Cp 2, if_neg (by decide : (2 : Nat) ≠ 0), Bp 2,
        if_neg (by decide : (2 : Nat) ≠ 4), Ap 2, if_pos rfl]
    · rw [Cf, Bf, Af (left_pos m 2),
        if_pos (Or.inl (show left_pos m 2
          = left_pos ({ m with steps := m.steps + 1 }) 2 from rfl))]
    · rw [Cf, Bf, Af (right_pos m 2),
        if_pos (Or.inr (show right_pos m 2
          = right_pos ({ m with steps := m.steps + 1 }) 2 from rfl))]
    · intro q hq hqf
      simp only [List.mem_cons, List.mem_singleton, List.not_mem_nil, or_false] at hq
      rcases hq with rfl | rfl | rfl
      · refine ⟨?_, ?_⟩
        · rw [Cp 0, if_pos rfl]
          show (s2.phils 0).state = PState.HUNGRY
          rw [Bp 0, if_neg (by decide : (0 : Nat) ≠ 4), Ap 0, if_neg (by decide : (0 : Nat) ≠ 2)]
          simp only [phils_steps_set]
          exact hph 0 (by simp)
        · exact Or.inr (by
            rw [Cf, hr0]
            exact hshareC)
      · exact absurd rfl hqf
      · refine ⟨?_, ?_⟩
        · rw [Cp 4, if_neg (by decide : (4 : Nat) ≠ 0), Bp 4, if_pos rfl]
          show (s1.phils 4).state = PState.HUNGRY
          rw [Ap 4, if_neg (by decide : (4 : Nat) ≠ 2)]
          simp only [phils_steps_set]
          exact hph 4 (by simp)
        · exact Or.inl (by
            rw [Cf, Bf, hl4]
            exact hshareB)
  · obtain rfl : (4 : Nat) = f := Option.some.inj hf
    have e : model_step m [4, 0, 2] d
        = phil_step (phil_step (phil_step ({ m with steps := m.steps + 1 }) 4 (d 4))
            0 (d 0)) 2 (d 2) := rfl
    rw [e]
    obtain ⟨Ap, Af, An, As, Ah, Ac⟩ :=
      phil_step_hungry_atomic_eats ({ m with steps := m.steps + 1 }) 4 (d 4)
        (by simp only [strategy_steps_set]; exact hst)
        (by simp only [phils_steps_set]; exact hph 4 (by simp))
        (by simp only [forks_steps_set, left_pos_steps_set]
            rw [hl4]
            exact hforkfree 3 (by simp))
        (by simp only [forks_steps_set, right_pos_steps_set]
            rw [hr4]
            exact hforkfree 5 (by simp))
    set s1 := phil_step ({ m with steps := m.steps + 1 }) 4 (d 4) with hs1
    have hnum1 : s1.num_philosophers = m.num_philosophers := An
    have hshareB : (s1.forks 5).is_used = true := by
      rw [Af 5, if_pos (Or.inr (show (5 : Nat)
          = right_pos ({ m with steps := m.steps + 1 }) 4 from by
        simp only [right_pos_steps_set]
        rw [hr4]))]
    obtain ⟨Bp, Bf, Bn, Bs, Bh, Bc⟩ :=
      phil_step_hungry_atomic_fails s1 0 (d 0)
        (by rw [As]; simp only [strategy_steps_set]; exact hst)
        (by rw [Ap 0, if_neg (by decide : (0 : Nat) ≠ 4)]
            simp only [phils_steps_set]
            exact hph 0 (by simp))
        (Or.inl (by
          rw [left_pos_congr hnum1, hl0]
          exact hshareB))
    set s2 := phil_step s1 0 (d 0) with hs2
    have hnum2 : s2.num_philosophers = m.num_philosophers := by rw [Bn]; exact hnum1
    have hshareC : (s2.forks 3).is_used = true := by
      rw [Bf, Af 3, if_pos (Or.inl (show (3 : Nat)
          = left_pos ({ m with steps := m.steps + 1 }) 4 from by
        simp only [left_pos_steps_set]
        rw [hl4]))]
    obtain ⟨Cp, Cf, Cn, Cs, Ch, Cc⟩ :=
      phil_step_hungry_atomic_fails s2 2 (d 2)
        (by rw [Bs, As]; simp only [strategy_steps_set]; exact hst)
        (by rw [Bp 2, if_neg (by decide : (2 : Nat) ≠ 0), Ap 2,
              if_neg (by decide : (2 : Nat) ≠ 4)]
            simp only [phils_steps_set]
            exact hph 2 (by simp))
        (Or.inr (by
          rw [right_pos_congr hnum2, hr2]
          exact hshareC))
    refine ⟨?_, ?_, ?_, ?_⟩
    · rw [Cp 4, if_neg (by decide : (4 : Nat) ≠ 2), Bp 4,
        if_neg (by decide : (4 : Nat) ≠ 0), Ap 4, if_pos rfl]
    · rw [Cf, Bf, Af (left_pos m 4),
        if_pos (Or.inl (show left_pos m 4
          = left_pos ({ m with steps := m.steps + 1 }) 4 from rfl))]
    · rw [Cf, Bf, Af (right_pos m 4),
        if_pos (Or.inr (show right_pos m 4
          = right_pos ({ m with steps := m.steps + 1 }) 4 from rfl))]
    · intro q hq hqf
      simp only [List.mem_cons, List.mem_singleton, List.not_mem_nil, or_false] at hq
      rcases hq with rfl | rfl | rfl
      · refine ⟨?_, ?_⟩
        · rw [Cp 0, if_neg (by decide : (0 : Nat) ≠ 2), Bp 0, if_pos rfl]
          show (s1.phils 0).state = PState.HUNGRY
          rw [Ap 0, if_neg (by decide : (0 : Nat) ≠ 4)]
          simp only [phils_steps_set]
          exact hph 0 (by simp)
        · exact Or.inl (by
            rw [Cf, Bf, hl0]
            exact hshareB)
      · refine ⟨?_, ?_⟩
        · rw [Cp 2, if_pos rfl]
          show (s2.phils 2).state = PState.HUNGRY
          rw [Bp 2, if_neg (by decide : (2 : Nat) ≠ 0), Ap 2, if_neg (by decide : (2 : Nat) ≠ 4)]
          simp only [phils_steps_set]
          exact hph 2 (by simp)
        · exact Or.inr (by
            rw [Cf, hr2]
            exact hshareC)
      · exact absurd rfl hqf
  · obtain rfl : (4 : Nat) = f := Option.some.inj hf
    have e : model_step m [4, 2, 0] d
        = phil_step (phil_step (phil_step ({ m with steps := m.steps + 1 }) 4 (d 4))
            2 (d 2)) 0 (d 0) := rfl
    rw [e]
    obtain ⟨Ap, Af, An, As, Ah, Ac⟩ :=
      phil_step_hungry_atomic_eats ({ m with steps := m.steps + 1 }) 4 (d 4)
        (by simp only [strategy_steps_set]; exact hst)
        (by simp only [phils_steps_set]; exact hph 4 (by simp))
        (by simp only [forks_steps_set, left_pos_steps_set]
            rw [hl4]
            exact hforkfree 3 (by simp))
        (by simp only [forks_steps_set, right_pos_steps_set]
            rw [hr4]
            exact hforkfree 5 (by simp))
    set s1 := phil_step ({ m with steps := m.steps + 1 }) 4 (d 4) with hs1
    have hnum1 : s1.num_philosophers = m.num_philosophers := An
    have hshareB : (s1.forks 3).is_used = true := by
      rw [Af 3, if_pos (Or.inl (show (3 : Nat)
          = left_pos ({ m with steps := m.steps + 1 }) 4 from by
        simp only [left_pos_steps_set]
        rw [hl4]))]
    obtain ⟨Bp, Bf, Bn, Bs, Bh, Bc⟩ :=
      phil_step_hungry_atomic_fails s1 2 (d 2)
        (by rw [As]; simp only [strategy_steps_set]; exact hst)
        (by rw [Ap 2, if_neg (by decide : (2 : Nat) ≠ 4)]
            simp only [phils_steps_set]
            exact hph 2 (by simp))
        (Or.inr (by
          rw [right_pos_congr hnum1, hr2]
          exact hshareB))
    set s2 := phil_step s1 2 (d 2) with hs2
    have hnum2 : s2.num_philosophers = m.num_philosophers := by rw [Bn]; exact hnum1
    have hshareC : (s2.forks 5).is_used = true := by
      rw [Bf, Af 5, if_pos (Or.inr (show (5 : Nat)
          = right_pos ({ m with steps := m.steps + 1 }) 4 from by
        simp only [right_pos_steps_set]
        rw [hr4]))]
    obtain ⟨Cp, Cf, Cn, Cs, Ch, Cc⟩ :=
      phil_step_hungry_atomic_fails s2 0 (d 0)
        (by rw [Bs, As]; simp only [strategy_steps_set]; exact hst)
        (by rw [Bp 0, if_neg (by decide : (0 : Nat) ≠ 2), Ap 0,
              if_neg (by decide : (0 : Nat) ≠ 4)]
            simp only [phils_steps_set]
            exact hph 0 (by simp))
        (Or.inl (by
          rw [left_pos_congr hnum2, hl0]
          exact hshareC))
    refine ⟨?_, ?_, ?_, ?_⟩
    · rw [Cp 4, if_neg (by decide : (4 : Nat) ≠ 0), Bp 4,
        if_neg (by decide : (4 : Nat) ≠ 2), Ap 4, if_pos rfl]
    · rw [Cf, Bf, Af (left_pos m 4),
        if_pos (Or.inl (show left_pos m 4
          = left_pos ({ m with steps := m.steps + 1 }) 4 from rfl))]
    · rw [Cf, Bf, Af (right_pos m 4),
        if_pos (Or.inr (show right_pos m 4
          = right_pos ({ m with steps := m.steps + 1 }) 4 from rfl))]
    · intro q hq hqf
      simp only [List.mem_cons, List.mem_singleton, List.not_mem_nil, or_false] at hq
      rcases hq with rfl | rfl | rfl
      · refine ⟨?_, ?_⟩
        · rw [Cp 0, if_pos rfl]
          show (s2.phils 0).state = PState.HUNGRY
          rw [Bp 0, if_neg (by decide : (0 : Nat) ≠ 2), Ap 0, if_neg (by decide : (0 : Nat) ≠ 4)]
          simp only [phils_steps_set]
          exact hph 0 (by simp)
        · exact Or.inl (by
            rw [Cf, hl0]
            exact hshareC)
      · refine ⟨?_, ?_⟩
        · rw [Cp 2, if_neg (by decide : (2 : Nat) ≠ 0), Bp 2, if_pos rfl]
          show (s1.phils 2).state = PState.HUNGRY
          rw [Ap 2, if_neg (by decide : (2 : Nat) ≠ 4)]
          simp only [phils_steps_set]
          exact hph 2 (by simp)
        · exact Or.inr (by
            rw [Cf, Bf, hr2]
            exact hshareB)
      · exact absurd rfl hqf

/-- C9: in the scenario with three philosophers, hunger chance 1, full
chance 0 and the Atomic strategy, for every seed (any shuffle orders, any
uniform draws in `[0,1)`): after tick one all three philosophers are hungry
and every fork is unclaimed; after tick two the first philosopher of the
second shuffle order eats holding both adjacent forks while the other two
stay hungry, each with at least one adjacent fork in use. -/
theorem C9_concrete_scenario (order1 order2 : List Nat) (d1 d2 : Nat → ℚ) (f : Nat)
    (hperm1 : order1.Perm (phil_positions (initModel 3 Strategy.Atomic 1 0)))
    (hperm2 : order2.Perm
      (phil_positions (model_step (initModel 3 Strategy.Atomic 1 0) order1 d1)))
    (hd1 : ∀ q ∈ order1, 0 ≤ d1 q ∧ d1 q < 1)
    (hd2 : ∀ q ∈ order2, 0 ≤ d2 q ∧ d2 q < 1)
    (hf : order2.head? = some f) :
    (∀ q ∈ ([0, 2, 4] : List Nat),
      ((model_step (initModel 3 Strategy.Atomic 1 0) order1 d1).phils q).state
        = PState.HUNGRY) ∧
    (∀ p ∈ ([1, 3, 5] : List Nat),
      (model_step (initModel 3 Strategy.Atomic 1 0) order1 d1).forks p
        = { is_used := false, owner := none }) ∧
    ((model_step (model_step (initModel 3 Strategy.Atomic 1 0) order1 d1)
        order2 d2).phils f).state = PState.EATING ∧
    (model_step (model_step (initModel 3 Strategy.Atomic 1 0) order1 d1)
        order2 d2).forks
        (left_pos (model_step (initModel 3 Strategy.Atomic 1 0) order1 d1) f)
      = { is_used := true, owner := some f } ∧
    (model_step (model_step (initModel 3 Strategy.Atomic 1 0) order1 d1)
        order2 d2).forks
        (right_pos (model_step (initModel 3 Strategy.Atomic 1 0) order1 d1) f)
      = { is_used := true, owner := some f } ∧
    (∀ q ∈ ([0, 2, 4] : List Nat), q ≠ f →
      ((model_step (model_step (initModel 3 Strategy.Atomic 1 0) order1 d1)
          order2 d2).phils q).state = PState.HUNGRY ∧
        (((model_step (model_step (initModel 3 Strategy.Atomic 1 0) order1 d1)
            order2 d2).forks
            (left_pos (model_step (initModel 3 Strategy.Atomic 1 0) order1 d1) q)).is_used
            = true
          ∨ ((model_step (model_step (initModel 3 Strategy.Atomic 1 0) order1 d1)
            order2 d2).forks
            (right_pos (model_step (initModel 3 Strategy.Atomic 1 0) order1 d1)
              q)).is_used = true)) := by
  have hmid := C9_tick1 order1 d1 hperm1 hd1
  have hperm2b : order2.Perm ([0, 2, 4] : List Nat) := by
    have h24 : phil_positions (model_step (initModel 3 Strategy.Atomic 1 0) order1 d1)
        = ([0, 2, 4] : List Nat) := by
      unfold phil_positions
      rw [hmid.1]
      decide
    rw [h24] at hperm2
    exact hperm2
  obtain ⟨hEat, hLf, hRf, hOthers⟩ :=
    C9_tick2 (model_step (initModel 3 Strategy.Atomic 1 0) order1 d1) hmid
      order2 d2 hperm2b f hf
  exact ⟨hmid.2.2.2.2.1, hmid.2.2.2.2.2, hEat, hLf, hRf, hOthers⟩

/-- Witness for C9 with the identity order on tick one, the rotated order
on tick two, and draw value one half everywhere. -/
theorem C9_concrete_scenario_witness :
    ((model_step (model_step (initModel 3 Strategy.Atomic 1 0) [0, 2, 4] (fun _ => 0))
        [2, 4, 0] (fun _ => 0)).phils 2).state = PState.EATING ∧
      (model_step (model_step (initModel 3 Strategy.Atomic 1 0) [0, 2, 4] (fun _ => 0))
        [2, 4, 0] (fun _ => 0)).forks
        (left_pos (model_step (initModel 3 Strategy.Atomic 1 0) [0, 2, 4] (fun _ => 0)) 2)
        = { is_used := true, owner := some 2 } :=
  ⟨(C9_concrete_scenario [0, 2, 4] [2, 4, 0] (fun _ => 0) (fun _ => 0) 2
      (by decide) (by decide) (by decide) (by decide) rfl).2.2.1,
   (C9_concrete_scenario [0, 2, 4] [2, 4, 0] (fun _ => 0) (fun _ => 0) 2
      (by decide) (by decide) (by decide) (by decide) rfl).2.2.2.1⟩

end DiningPhilosophers
